import Mathlib

/-!
Verification of the big-integer / fraction core of the matrix-calculator
repository.  `HaInt` embeds `struct ha_int` (high-accuracy-integer module):
a sign flag (`true` for positive and zero) together with the decimal digits
stored least-significant first.  `HaFrac` embeds `struct ha_frac`.
Every definition mirrors the corresponding C function; C loops become
structural recursion (or fuel-indexed recursion when the C loop is not
bounded by a syntactic quantity).
-/

namespace MatrixCalc

/-- Value of a little-endian decimal digit list. -/
def valD : List Nat → Nat
  | [] => 0
  | d :: ds => d + 10 * valD ds

/-- Helper for `remove_leading_zeros`, acting on the most-significant-first
view of the digits: drop zeros while more than one digit remains. -/
def trimRev : List Nat → List Nat
  | [] => []
  | [d] => [d]
  | d :: ds => if d = 0 then trimRev ds else d :: ds

/-- `remove_leading_zeros(num)`: digits are stored little-endian, so the C
function removes zeros at the end of the stored array, keeping at least one
digit. -/
def trim (ds : List Nat) : List Nat := (trimRev ds.reverse).reverse

/-- `struct ha_int`: `sign` is `true` for positive and 0, `false` for
negative; `digits` are stored in reverse (little-endian) order. -/
structure HaInt where
  sign : Bool
  digits : List Nat
  deriving DecidableEq

/-- Well-formedness of a stored digit sequence: non-empty, every digit is a
decimal digit, and no redundant zero in the most significant position
(except for the single digit of zero itself). -/
def WFd (ds : List Nat) : Prop :=
  ds ≠ [] ∧ (∀ d ∈ ds, d < 10) ∧ (ds.getLast? = some 0 → ds = [0])

instance (ds : List Nat) : Decidable (WFd ds) := by
  unfold WFd; infer_instance

/-- Well-formed `ha_int`: valid digit sequence and no negative zero. -/
def WF (n : HaInt) : Prop :=
  WFd n.digits ∧ (n.digits = [0] → n.sign = true)

instance (n : HaInt) : Decidable (WF n) := by
  unfold WF; infer_instance

/-- The integer an `ha_int` denotes. -/
def toInt (n : HaInt) : Int :=
  if n.sign then (valD n.digits : Int) else -(valD n.digits : Int)

/-- The digit value a character represents (`c - '0'`). -/
def charToDigit (c : Char) : Nat := c.toNat - 48

/-- `'0' <= c && c <= '9'` (the C validation rejects
`s[i] < '0' || s[i] > '9'`; character comparison is numeric). -/
def isDigitCh (c : Char) : Bool := 48 ≤ c.toNat && c.toNat ≤ 57

/-- `ha_int_create(s)`: parse a decimal string, `none` (C: `NULL`) when `s`
is not a valid integer literal.  Mirrors the validation order of the C code:
empty string; `'-'` followed by nothing or by a character outside `'1'..'9'`;
a redundant leading `'0'`; any non-digit character. -/
def ha_int_create (s : String) : Option HaInt :=
  match s.data with
  | [] => none
  | c :: rest =>
    if c = '-' then
      match rest with
      | [] => none
      | d :: _ =>
        if d.toNat < 49 ∨ 57 < d.toNat then none
        else if rest.all isDigitCh then
          some ⟨false, (rest.map charToDigit).reverse⟩
        else none
    else if c = '0' ∧ rest ≠ [] then none
    else if (c :: rest).all isDigitCh then
      some ⟨true, ((c :: rest).map charToDigit).reverse⟩
    else none

/-- Character of a digit value (`d + '0'`). -/
def digitToChar (d : Nat) : Char := Char.ofNat (d + 48)

/-- `ha_int_to_str(n)`: optional `'-'` followed by the digits in
most-significant-first order. -/
def ha_int_to_str (n : HaInt) : String :=
  ⟨(if n.sign then [] else ['-']) ++ (n.digits.reverse.map digitToChar)⟩

/-- `ha_int_eq(n, m)`: same sign, same length, same digits. -/
def ha_int_eq (n m : HaInt) : Bool :=
  n.sign == m.sign && n.digits == m.digits

/-- Most-significant-first lexicographic digit comparison: the loop of
`abs_gt` running from the top digit downwards. -/
def lexGtBE : List Nat → List Nat → Bool
  | a :: as, b :: bs =>
    if a > b then true else if a < b then false else lexGtBE as bs
  | _, _ => false

/-- `abs_gt(n, m)`: longer digit sequence wins, otherwise compare digits from
the most significant end. -/
def absGt (ns ms : List Nat) : Bool :=
  if ns.length > ms.length then true
  else if ns.length < ms.length then false
  else lexGtBE ns.reverse ms.reverse

/-- `ha_int_gt(n, m)`: sign fast path, then magnitude comparison (reversed
for two negatives). -/
def ha_int_gt (n m : HaInt) : Bool :=
  if n.sign && !m.sign then true
  else if !n.sign && m.sign then false
  else if n.sign then absGt n.digits m.digits
  else absGt m.digits n.digits

/-- The digit loop of `abs_add`: `k` iterations of
`sum = carry + digit(m) + digit(n)` (reading `0` past the end of either
list), emitting `sum % 10` and carrying `sum / 10`. -/
def addLoop : Nat → List Nat → List Nat → Nat → List Nat
  | 0, _, _, _ => []
  | k + 1, ns, ms, c =>
    let s := c + ns.headD 0 + ms.headD 0
    (s % 10) :: addLoop k ns.tail ms.tail (s / 10)

/-- `abs_add(n, m)`: digit-wise sum over `max len + 1` positions, then trim. -/
def absAddD (ns ms : List Nat) : List Nat :=
  trim (addLoop (max ns.length ms.length + 1) ns ms 0)

/-- The digit loop of `abs_big_sub_small`: `k` iterations of
`sub = carry + digit(big) - digit(small)`, adding `10` and borrowing when the
difference is negative. -/
def subLoop : Nat → List Nat → List Nat → Int → List Nat
  | 0, _, _, _ => []
  | k + 1, bs, ss, c =>
    let d : Int := c + (bs.headD 0 : Int) - (ss.headD 0 : Int)
    if d < 0 then ((d + 10).toNat % 10) :: subLoop k bs.tail ss.tail (-1)
    else (d.toNat % 10) :: subLoop k bs.tail ss.tail 0

/-- `abs_big_sub_small(n, m)`: subtract the smaller magnitude from the larger
(chosen with `abs_gt`), over `max len` positions, then trim. -/
def absSubD (ns ms : List Nat) : List Nat :=
  let big := if absGt ns ms then ns else ms
  let small := if absGt ns ms then ms else ns
  trim (subLoop (max ns.length ms.length) big small 0)

/-- `ha_int_add(n, m)`: same signs add magnitudes and keep the sign;
different signs subtract the smaller magnitude from the larger, the result
sign following the operand with the larger magnitude (default `true`). -/
def ha_int_add (n m : HaInt) : HaInt :=
  if n.sign = m.sign then
    ⟨n.sign, absAddD n.digits m.digits⟩
  else
    let s :=
      if absGt n.digits m.digits then (if n.sign then true else false)
      else if absGt m.digits n.digits then (if n.sign then false else true)
      else true
    ⟨s, absSubD n.digits m.digits⟩

/-- `ha_int_sub(n, m)`: different signs add magnitudes and keep `n`'s sign;
same signs subtract magnitudes with the sign rules of the C code. -/
def ha_int_sub (n m : HaInt) : HaInt :=
  if n.sign ≠ m.sign then
    ⟨n.sign, absAddD n.digits m.digits⟩
  else
    let s :=
      if absGt n.digits m.digits then (if n.sign then true else false)
      else if absGt m.digits n.digits then (if n.sign then false else true)
      else true
    ⟨s, absSubD n.digits m.digits⟩

/-- `is_zero(n)`: a single `'0'` digit. -/
def is_zero (n : HaInt) : Bool := n.digits == [0]

/-- `mult_div_sign(n, m)`: `true` when either operand is zero, otherwise
`true` exactly when the signs agree. -/
def mult_div_sign (n m : HaInt) : Bool :=
  if is_zero n || is_zero m then true
  else n.sign == m.sign

/-- One row of the multiplication loop (`j` over the multiplier digits for a
fixed multiplicand digit `d`): accumulate `d * m_j + partial + carry` into the
buffer, and write the final carry into the position just past the row. -/
def mulRow (d : Nat) : List Nat → List Nat → Nat → List Nat
  | [], rest, carry => carry :: rest.tail
  | m0 :: ms, rest, carry =>
    let t := d * m0 + rest.headD 0 + carry
    (t % 10) :: mulRow d ms rest.tail (t / 10)

/-- The outer multiplication loop (`i` over the multiplicand digits): each
row acts on the buffer shifted by one position. -/
def mulLoop : List Nat → List Nat → List Nat → List Nat
  | [], _, cur => cur
  | n0 :: ns, ms, cur =>
    let cur' := mulRow n0 ms cur 0
    cur'.headD 0 :: mulLoop ns ms cur'.tail

/-- `ha_int_mult(n, m)`: schoolbook multiplication into a zero-initialised
buffer of `len n + len m` digits, then trim; sign from `mult_div_sign`. -/
def ha_int_mult (n m : HaInt) : HaInt :=
  ⟨mult_div_sign n m,
   trim (mulLoop n.digits m.digits
      (List.replicate (n.digits.length + m.digits.length) 0))⟩

/-- The inner `while` of `ha_int_quotient`: subtract the scaled divisor from
the running dividend while it still fits, counting the subtractions.  The C
loop is bounded only by the shrinking dividend, so the embedding carries
fuel; any fuel larger than the dividend's value gives the loop's result. -/
def divSubLoop : Nat → HaInt → HaInt → Nat × HaInt
  | 0, dividend, _ => (0, dividend)
  | fuel + 1, dividend, md =>
    if absGt md.digits dividend.digits then (0, dividend)
    else
      let p := divSubLoop fuel (ha_int_sub dividend md) md
      (p.1 + 1, p.2)

/-- The power of ten `10^k` built by `ha_int_create("1" ++ "0"*k)` inside the
quotient loop (digits little-endian: `k` zeros then `1`). -/
def tenPowInt (k : Nat) : HaInt := ⟨true, List.replicate k 0 ++ [1]⟩

/-- The outer loop of `ha_int_quotient`, iterating the scale exponent
`len_differ` from `len n - len m` down to `0` (the C code tracks the
shrinking `dividend_len` and recomputes `len_differ` each round); returns
the quotient digits in most-significant-first order together with the final
dividend.  Each round scales the divisor by `10^len_differ` (building the
string `"1" ++ "0"*len_differ`), forces its sign positive, and counts
subtractions. -/
def divOuter (m : HaInt) : Nat → HaInt → List Nat × HaInt
  | 0, dividend =>
    let md : HaInt := ⟨true, (ha_int_mult m (tenPowInt 0)).digits⟩
    let p := divSubLoop (valD dividend.digits + 1) dividend md
    ([p.1], p.2)
  | ld + 1, dividend =>
    let md : HaInt := ⟨true, (ha_int_mult m (tenPowInt (ld + 1))).digits⟩
    let p := divSubLoop (valD dividend.digits + 1) dividend md
    let q := divOuter m ld p.2
    (p.1 :: q.1, q.2)

/-- `ha_int_quotient(n, m)`: `none` (C: `NULL` plus error message) when `m`
is zero; zero when `|n| < |m|`; otherwise shift-and-subtract long division on
the magnitudes, digits reversed into place and trimmed, the sign following
`mult_div_sign`. -/
def ha_int_quotient (n m : HaInt) : Option HaInt :=
  if is_zero m then none
  else if absGt m.digits n.digits then some ⟨true, [0]⟩
  else
    let L := n.digits.length - m.digits.length
    let p := divOuter m L ⟨true, n.digits⟩
    some ⟨mult_div_sign n m,
          trim (p.1.reverse ++ List.replicate (n.digits.length - (L + 1)) 0)⟩

/-- `ha_int_remainder(n, m)`: `none` when `m` is zero, otherwise
`n - m * quotient(n, m)` computed with `ha_int_quotient`, `ha_int_mult` and
`ha_int_sub`. -/
def ha_int_remainder (n m : HaInt) : Option HaInt :=
  if is_zero m then none
  else (ha_int_quotient n m).map fun q => ha_int_sub n (ha_int_mult m q)

/-! The fraction layer (`high-accuracy-fraction.c`). -/

/-- `struct ha_frac`: sign flag plus numerator and denominator magnitudes. -/
structure HaFrac where
  nega : Bool
  nume : HaInt
  denom : HaInt
  deriving DecidableEq

/-- The `ha_int` built by `ha_int_create("0")`. -/
def zeroInt : HaInt := ⟨true, [0]⟩

/-- The `ha_int` built by `ha_int_create("1")`. -/
def oneInt : HaInt := ⟨true, [1]⟩

/-- `ha_int_cmp(n, m)`: `1` when `n > m`, `0` when `n == m`, else `-1`. -/
def ha_int_cmp (n m : HaInt) : Int :=
  if ha_int_gt n m then 1 else if ha_int_eq n m then 0 else -1

/-- `ha_int_sign(n)`: comparison against `ha_int_create("0")`. -/
def ha_int_sign (n : HaInt) : Int := ha_int_cmp n zeroInt

/-- `get_gcd(small, big)`: the recursive Euclidean algorithm of the fraction
module, `gcd(small, big) = small` when `big mod small = 0`, else
`gcd(big mod small, small)`.  The C recursion is bounded only by the
shrinking remainder, so the embedding carries fuel; a failed inner
`ha_int_remainder` (zero divisor) propagates as `none`. -/
def get_gcd : Nat → HaInt → HaInt → Option HaInt
  | 0, _, _ => none
  | fuel + 1, small, big =>
    match ha_int_remainder big small with
    | none => none
    | some remain =>
      if ha_int_sign remain = 0 then some small
      else get_gcd fuel remain small

/-- `posi_copy(n)`: `|n|`, computed as `0 - n` for negative `n`. -/
def posi_copy (n : HaInt) : HaInt :=
  if ha_int_sign n < 0 then ha_int_sub zeroInt n else n

/-- The sign computed by `ha_frac_reduc`: `false` when the numerator and
denominator signs agree (both positive or both negative), else `true`. -/
def reduc_nega (nume denom : HaInt) : Bool :=
  if (ha_int_sign nume > 0 ∧ ha_int_sign denom > 0) ∨
     (ha_int_sign nume < 0 ∧ ha_int_sign denom < 0) then false else true

/-- `ha_frac_reduc(nume, denom)`: the canonicalising constructor.  A zero
denominator fails the C `assert` (modelled as `none`); a zero numerator
yields the canonical zero; otherwise the sign is the parity of the operand
signs and the positive magnitude copies are divided by their gcd (equal
magnitudes short-circuit to `1/1`; the gcd is called with the smaller
magnitude first).  The gcd fuel `valD small + 1` always suffices. -/
def ha_frac_reduc (nume denom : HaInt) : Option HaFrac :=
  if ha_int_sign denom = 0 then none
  else if ha_int_sign nume = 0 then some ⟨false, zeroInt, oneInt⟩
  else if ha_int_cmp (posi_copy nume) (posi_copy denom) = 0 then
    some ⟨reduc_nega nume denom, oneInt, oneInt⟩
  else
    match (if ha_int_cmp (posi_copy nume) (posi_copy denom) = 1 then
        get_gcd (valD (posi_copy denom).digits + 1)
          (posi_copy denom) (posi_copy nume)
      else
        get_gcd (valD (posi_copy nume).digits + 1)
          (posi_copy nume) (posi_copy denom)) with
    | none => none
    | some g =>
      match ha_int_quotient (posi_copy nume) g,
          ha_int_quotient (posi_copy denom) g with
      | some a, some b => some ⟨reduc_nega nume denom, a, b⟩
      | _, _ => none

/-- `ha_frac_create(numerator, denominator)`: parse both strings, reject a
zero denominator (or any parse failure), then reduce. -/
def ha_frac_create (numerator denominator : String) : Option HaFrac :=
  match ha_int_create numerator, ha_int_create denominator with
  | some nume, some denom =>
    if ha_int_sign denom = 0 then none else ha_frac_reduc nume denom
  | _, _ => none

/-- The second half of `ha_frac_add`: combine the numerators (already
brought to the common denominator) according to the sign flags, re-reduce
through `ha_frac_create` on the string forms, and force the sign when both
operands were negative. -/
def ha_frac_add_combine (n m : HaFrac) (newN newM newDenom : HaInt) :
    Option HaFrac :=
  match ha_frac_create
      (ha_int_to_str
        (if (n.nega ∧ m.nega) ∨ (¬n.nega ∧ ¬m.nega) then ha_int_add newN newM
         else if n.nega then ha_int_sub newM newN
         else ha_int_sub newN newM))
      (ha_int_to_str newDenom) with
  | none => none
  | some r => some (if n.nega ∧ m.nega then { r with nega := true } else r)

/-- `ha_frac_add(n, m)`: equal denominators keep them, otherwise the
cofactors `m.denom/gcd` and `n.denom/gcd` bring both numerators to the
common denominator `(m.denom/gcd) * n.denom`; the numerators are then
combined by `ha_frac_add_combine`. -/
def ha_frac_add (n m : HaFrac) : Option HaFrac :=
  if ha_int_cmp n.denom m.denom = 0 then
    ha_frac_add_combine n m n.nume m.nume n.denom
  else
    match (if ha_int_cmp n.denom m.denom > 0 then
        get_gcd (valD m.denom.digits + 1) m.denom n.denom
      else
        get_gcd (valD n.denom.digits + 1) n.denom m.denom) with
    | none => none
    | some g =>
      match ha_int_quotient m.denom g, ha_int_quotient n.denom g with
      | some nMult, some mMult =>
        ha_frac_add_combine n m (ha_int_mult nMult n.nume)
          (ha_int_mult mMult m.nume) (ha_int_mult nMult n.denom)
      | _, _ => none

/-- `ha_frac_sub(n, m)`: add `n` to a copy of `m` with the sign flag
flipped. -/
def ha_frac_sub (n m : HaFrac) : Option HaFrac :=
  ha_frac_add n ⟨!m.nega, m.nume, m.denom⟩

/-- `ha_frac_mult(n, m)`: multiply numerator and denominator magnitudes,
re-reduce through `ha_frac_create`, then overwrite the sign: `false` when
the flags agree or either numerator is zero, else `true`. -/
def ha_frac_mult (n m : HaFrac) : Option HaFrac :=
  let newNume := ha_int_mult n.nume m.nume
  let newDenom := ha_int_mult n.denom m.denom
  match ha_frac_create (ha_int_to_str newNume) (ha_int_to_str newDenom) with
  | none => none
  | some r =>
    some { r with
           nega := if n.nega = m.nega ∨ ha_int_sign n.nume = 0 ∨
                      ha_int_sign m.nume = 0 then false else true }

/-- Outcome of `ha_frac_div`: a fraction, an assertion failure
(`assert(ha_int_sign(m->nume) != 0)` aborts the program, returning nothing
to the caller), or a `NULL` result propagated from the inner operations. -/
inductive DivResult where
  | ok : HaFrac → DivResult
  | assertFail : DivResult
  | invalid : DivResult
  deriving DecidableEq

/-- `ha_frac_div(n, m)`: asserts that the divisor is non-zero, then
multiplies by the reciprocal (numerator and denominator swapped, sign
preserved). -/
def ha_frac_div (n m : HaFrac) : DivResult :=
  if ha_int_sign m.nume = 0 then DivResult.assertFail
  else
    match ha_frac_mult n ⟨m.nega, m.denom, m.nume⟩ with
    | some r => DivResult.ok r
    | none => DivResult.invalid

/-- `ha_frac_cmp(n, m)`: the sign of `ha_frac_sub(n, m)` — `-1` when the
difference is negative, `0` when its numerator is zero, else `1`. -/
def ha_frac_cmp (n m : HaFrac) : Option Int :=
  (ha_frac_sub n m).map fun d =>
    if d.nega then -1 else if ha_int_sign d.nume = 0 then 0 else 1

/-- `ha_frac_is_frac(num)`: the denominator differs from `1`. -/
def ha_frac_is_frac (num : HaFrac) : Bool :=
  !(ha_int_eq num.denom oneInt)

/-! Specification-side definitions, written from the claims' words (used to
compare the code's behaviour against the spec). -/

/-- The claim's description of a valid integer literal: an optional leading
`'-'` followed by one or more decimal digits, no superfluous leading zeros,
not `"-0"`, not empty, no non-digit characters. -/
def validIntString (s : String) : Bool :=
  match s.data with
  | [] => false
  | c :: rest =>
    if c = '-' then
      !rest.isEmpty && rest.all isDigitCh && !(rest.headD '0' == '0')
    else
      (c :: rest).all isDigitCh && (!(c == '0') || rest.isEmpty)

/-- The canonical-form invariant of a fraction: well-formed magnitudes with
non-negative stored sign, strictly positive denominator, fully reduced, and
the canonical zero `(false, 0, 1)`. -/
def Canonical (f : HaFrac) : Prop :=
  WF f.nume ∧ WF f.denom ∧ f.nume.sign = true ∧ f.denom.sign = true ∧
  0 < valD f.denom.digits ∧
  Nat.gcd (valD f.nume.digits) (valD f.denom.digits) = 1 ∧
  (valD f.nume.digits = 0 → f.nega = false ∧ f.nume = zeroInt ∧ f.denom = oneInt)

instance (f : HaFrac) : Decidable (Canonical f) := by
  unfold Canonical; infer_instance

/-- The facts about an operand that `ha_frac_add` actually relies on:
well-formed parts stored as non-negative magnitudes over a positive
denominator.  Every canonical fraction satisfies this, and so does the
sign-flipped copy that `ha_frac_sub` builds. -/
def AddOk (f : HaFrac) : Prop :=
  WF f.nume ∧ WF f.denom ∧ f.nume.sign = true ∧ f.denom.sign = true ∧
  0 < valD f.denom.digits

instance (f : HaFrac) : Decidable (AddOk f) := by
  unfold AddOk; infer_instance

/-- The rational number a fraction denotes. -/
def fracVal (f : HaFrac) : ℚ :=
  (if f.nega then -(valD f.nume.digits : ℚ) else (valD f.nume.digits : ℚ)) /
    (valD f.denom.digits : ℚ)

/-! Basic facts about digit values and trimming. -/

theorem valD_append (l1 l2 : List Nat) :
    valD (l1 ++ l2) = valD l1 + 10 ^ l1.length * valD l2 := by
  induction l1 with
  | nil => simp [valD]
  | cons d ds ih => simp [valD, ih, pow_succ]; ring

theorem valD_replicate_zero (k : Nat) : valD (List.replicate k 0) = 0 := by
  induction k with
  | zero => rfl
  | succ k ih => simp [List.replicate, valD, ih]

theorem valD_lt_pow {l : List Nat} (h : ∀ d ∈ l, d < 10) :
    valD l < 10 ^ l.length := by
  induction l with
  | nil => simp [valD]
  | cons d ds ih =>
    have hd : d < 10 := h d (by simp)
    have hds : valD ds < 10 ^ ds.length := ih (fun x hx => h x (by simp [hx]))
    simp only [valD, List.length_cons, pow_succ]
    omega

theorem valD_concat (l : List Nat) (d : Nat) :
    valD (l ++ [d]) = valD l + 10 ^ l.length * d := by
  rw [valD_append]; simp [valD]

theorem valD_ge_of_getLast {l : List Nat} {d : Nat} (h : l.getLast? = some d) :
    10 ^ (l.length - 1) * d ≤ valD l := by
  rcases List.eq_nil_or_concat l with rfl | ⟨l', e, rfl⟩
  · simp at h
  · simp only [List.concat_eq_append] at h ⊢
    rw [List.getLast?_concat] at h
    cases h
    rw [valD_concat]
    simp

theorem trimRev_replicate (l : List Nat) :
    ∃ k, l = List.replicate k 0 ++ trimRev l := by
  induction l with
  | nil => exact ⟨0, rfl⟩
  | cons d ds ih =>
    match ds, ih with
    | [], _ => exact ⟨0, rfl⟩
    | e :: es, ih =>
      by_cases hd : d = 0
      · obtain ⟨k, hk⟩ := ih
        subst hd
        refine ⟨k + 1, ?_⟩
        rw [show trimRev (0 :: e :: es) = trimRev (e :: es) from by
          simp [trimRev]]
        simpa [List.replicate_succ] using hk
      · refine ⟨0, ?_⟩
        simp [trimRev, hd]

theorem trim_replicate (l : List Nat) :
    ∃ k, l = trim l ++ List.replicate k 0 := by
  obtain ⟨k, hk⟩ := trimRev_replicate l.reverse
  refine ⟨k, ?_⟩
  have := congrArg List.reverse hk
  simpa [trim] using this

theorem valD_trim (l : List Nat) : valD (trim l) = valD l := by
  obtain ⟨k, hk⟩ := trim_replicate l
  conv_rhs => rw [hk]
  rw [valD_append, valD_replicate_zero]
  ring

theorem trimRev_ne_nil {l : List Nat} (h : l ≠ []) : trimRev l ≠ [] := by
  induction l with
  | nil => simp at h
  | cons d ds ih =>
    match ds with
    | [] => simp [trimRev]
    | e :: es =>
      by_cases hd : d = 0
      · subst hd
        rw [show trimRev (0 :: e :: es) = trimRev (e :: es) from by
          simp [trimRev]]
        exact ih (by simp)
      · simp [trimRev, hd]

theorem trim_ne_nil {l : List Nat} (h : l ≠ []) : trim l ≠ [] := by
  have := trimRev_ne_nil (l := l.reverse) (by simpa using h)
  simp only [trim]
  intro hc
  exact this (by simpa using congrArg List.reverse hc)

theorem trimRev_head_zero {l : List Nat} :
    trimRev l ≠ [] → (trimRev l).head? = some 0 → trimRev l = [0] := by
  induction l with
  | nil => simp [trimRev]
  | cons d ds ih =>
    match ds with
    | [] =>
      intro _ h
      simp [trimRev] at h ⊢
      exact h
    | e :: es =>
      by_cases hd : d = 0
      · subst hd
        rw [show trimRev (0 :: e :: es) = trimRev (e :: es) from by
          simp [trimRev]]
        exact ih
      · intro _ h
        simp [trimRev, hd] at h

theorem trim_getLast_zero {l : List Nat} (hne : l ≠ []) :
    (trim l).getLast? = some 0 → trim l = [0] := by
  intro h
  have h1 : (trimRev l.reverse).head? = some 0 := by
    have : (trim l).getLast? = (trimRev l.reverse).head? := by
      simp [trim, List.getLast?_reverse]
    rwa [this] at h
  have h2 := trimRev_head_zero (trimRev_ne_nil (l := l.reverse) (by simpa using hne)) h1
  simp [trim, h2]

theorem trim_subset {l : List Nat} : ∀ d ∈ trim l, d ∈ l := by
  intro d hd
  obtain ⟨k, hk⟩ := trim_replicate l
  rw [hk]
  exact List.mem_append_left _ hd

theorem WFd_trim {l : List Nat} (hne : l ≠ []) (hlt : ∀ d ∈ l, d < 10) :
    WFd (trim l) :=
  ⟨trim_ne_nil hne, fun d hd => hlt d (trim_subset d hd),
   trim_getLast_zero hne⟩

theorem valD_eq_zero_iff {l : List Nat} (h : WFd l) : valD l = 0 ↔ l = [0] := by
  constructor
  · intro hv
    by_contra hne
    have hlast : l.getLast? ≠ some 0 := fun hc => hne (h.2.2 hc)
    rcases List.eq_nil_or_concat l with rfl | ⟨l', e, rfl⟩
    · exact h.1 rfl
    · simp only [List.concat_eq_append] at hlast hv
      rw [List.getLast?_concat] at hlast
      have he : e ≠ 0 := fun hc => hlast (by rw [hc])
      have := valD_ge_of_getLast (l := l' ++ [e]) (d := e)
        (by rw [List.getLast?_concat])
      have hp : 0 < 10 ^ ((l' ++ [e]).length - 1) * e :=
        Nat.mul_pos (Nat.pos_pow_of_pos _ (by norm_num)) (Nat.pos_of_ne_zero he)
      omega
  · intro hv; subst hv; rfl

theorem valD_pos_of_ne_zero {l : List Nat} (h : WFd l) (hne : l ≠ [0]) :
    0 < valD l := by
  rcases Nat.eq_zero_or_pos (valD l) with h0 | h0
  · exact absurd ((valD_eq_zero_iff h).mp h0) hne
  · exact h0

/-- Canonical digit sequences are determined by their value. -/
theorem WFd_valD_inj : ∀ {l1 l2 : List Nat}, WFd l1 → WFd l2 →
    valD l1 = valD l2 → l1 = l2 := by
  intro l1
  induction l1 with
  | nil => intro l2 h1 _ _; exact absurd rfl h1.1
  | cons d1 t1 ih =>
    intro l2 h1 h2 hv
    match l2 with
    | [] => exact absurd rfl h2.1
    | d2 :: t2 =>
      have hd1 : d1 < 10 := h1.2.1 d1 (by simp)
      have hd2 : d2 < 10 := h2.2.1 d2 (by simp)
      simp only [valD] at hv
      have hd : d1 = d2 := by omega
      have ht : valD t1 = valD t2 := by omega
      subst hd
      -- tails
      match t1, t2 with
      | [], [] => rfl
      | [], e2 :: s2 =>
        exfalso
        have hne : (d1 :: e2 :: s2) ≠ [0] := by simp
        have hlast : (e2 :: s2).getLast? ≠ some 0 := by
          intro hc
          have : (d1 :: e2 :: s2).getLast? = some 0 := by
            rwa [List.getLast?_cons_cons]
          exact hne (h2.2.2 this)
        have hwft : WFd (e2 :: s2) :=
          ⟨by simp, fun x hx => h2.2.1 x (by simp [hx]),
           fun hc => absurd hc hlast⟩
        have : valD (e2 :: s2) = 0 := by simp [valD] at ht ⊢; omega
        have := (valD_eq_zero_iff hwft).mp this
        rw [this] at hlast
        simp at hlast
      | e1 :: s1, [] =>
        exfalso
        have hne : (d1 :: e1 :: s1) ≠ [0] := by simp
        have hlast : (e1 :: s1).getLast? ≠ some 0 := by
          intro hc
          have : (d1 :: e1 :: s1).getLast? = some 0 := by
            rwa [List.getLast?_cons_cons]
          exact hne (h1.2.2 this)
        have hwft : WFd (e1 :: s1) :=
          ⟨by simp, fun x hx => h1.2.1 x (by simp [hx]),
           fun hc => absurd hc hlast⟩
        have : valD (e1 :: s1) = 0 := by simp [valD] at ht ⊢; omega
        have := (valD_eq_zero_iff hwft).mp this
        rw [this] at hlast
        simp at hlast
      | e1 :: s1, e2 :: s2 =>
        have hwf1 : WFd (e1 :: s1) := by
          refine ⟨by simp, fun x hx => h1.2.1 x (by simp [hx]), fun hc => ?_⟩
          exfalso
          have : (d1 :: e1 :: s1).getLast? = some 0 := by
            rwa [List.getLast?_cons_cons]
          have := h1.2.2 this
          simp at this
        have hwf2 : WFd (e2 :: s2) := by
          refine ⟨by simp, fun x hx => h2.2.1 x (by simp [hx]), fun hc => ?_⟩
          exfalso
          have : (d1 :: e2 :: s2).getLast? = some 0 := by
            rwa [List.getLast?_cons_cons]
          have := h2.2.2 this
          simp at this
        have := ih hwf1 hwf2 ht
        rw [this]

/-! Comparison correctness. -/

theorem valD_ge_pow {l : List Nat} (h : WFd l) (hne : l ≠ [0]) :
    10 ^ (l.length - 1) ≤ valD l := by
  rcases List.eq_nil_or_concat l with rfl | ⟨l', e, rfl⟩
  · exact absurd rfl h.1
  · simp only [List.concat_eq_append] at hne h ⊢
    have hl : (l' ++ [e]).getLast? = some e := List.getLast?_concat _
    have he : e ≠ 0 := by
      intro hc
      subst hc
      exact hne (h.2.2 hl)
    have := valD_ge_of_getLast hl
    have h1 : 10 ^ ((l' ++ [e]).length - 1) * 1 ≤
        10 ^ ((l' ++ [e]).length - 1) * e :=
      Nat.mul_le_mul_left _ (Nat.one_le_iff_ne_zero.mpr he)
    omega

theorem lexGtBE_iff : ∀ {a b : List Nat}, a.length = b.length →
    (∀ d ∈ a, d < 10) → (∀ d ∈ b, d < 10) →
    (lexGtBE a b = true ↔ valD b.reverse < valD a.reverse) := by
  intro a
  induction a with
  | nil =>
    intro b hlen _ _
    have : b = [] := by
      cases b with
      | nil => rfl
      | cons x xs => simp at hlen
    subst this
    simp [lexGtBE, valD]
  | cons x xs ih =>
    intro b hlen ha hb
    match b with
    | [] => simp at hlen
    | y :: ys =>
      have hlen' : xs.length = ys.length := by simpa using hlen
      have hx : x < 10 := ha x (by simp)
      have hy : y < 10 := hb y (by simp)
      have hxs : ∀ d ∈ xs, d < 10 := fun d hd => ha d (by simp [hd])
      have hys : ∀ d ∈ ys, d < 10 := fun d hd => hb d (by simp [hd])
      have hvx : valD (x :: xs).reverse = valD xs.reverse + 10 ^ xs.length * x := by
        simp [valD_concat]
      have hvy : valD (y :: ys).reverse = valD ys.reverse + 10 ^ ys.length * y := by
        simp [valD_concat]
      have hbx : valD xs.reverse < 10 ^ xs.length := by
        have := valD_lt_pow (l := xs.reverse) (by simpa using hxs)
        simpa using this
      have hby : valD ys.reverse < 10 ^ ys.length := by
        have := valD_lt_pow (l := ys.reverse) (by simpa using hys)
        simpa using this
      rw [← hlen'] at hby hvy
      rw [hvx, hvy]
      by_cases hgt : x > y
      · have heval : lexGtBE (x :: xs) (y :: ys) = true := by
          simp [lexGtBE, hgt]
        rw [heval]
        simp only [true_iff]
        calc valD ys.reverse + 10 ^ xs.length * y
            < 10 ^ xs.length + 10 ^ xs.length * y := by omega
          _ = 10 ^ xs.length * (y + 1) := by ring
          _ ≤ 10 ^ xs.length * x := Nat.mul_le_mul_left _ hgt
          _ ≤ valD xs.reverse + 10 ^ xs.length * x := by omega
      · by_cases hlt : x < y
        · have heval : lexGtBE (x :: xs) (y :: ys) = false := by
            have hne : ¬ x > y := hgt
            simp [lexGtBE, hlt, hne]
          rw [heval]
          simp only [Bool.false_eq_true, false_iff, not_lt]
          refine le_of_lt ?_
          calc valD xs.reverse + 10 ^ xs.length * x
              < 10 ^ xs.length + 10 ^ xs.length * x := by omega
            _ = 10 ^ xs.length * (x + 1) := by ring
            _ ≤ 10 ^ xs.length * y := Nat.mul_le_mul_left _ hlt
            _ ≤ valD ys.reverse + 10 ^ xs.length * y := by omega
        · have hxy : x = y := by omega
          subst hxy
          have heval : lexGtBE (x :: xs) (x :: ys) = lexGtBE xs ys := by
            simp [lexGtBE]
          rw [heval, ih hlen' hxs hys]
          omega

theorem absGt_iff {l1 l2 : List Nat} (h1 : WFd l1) (h2 : WFd l2) :
    absGt l1 l2 = true ↔ valD l2 < valD l1 := by
  have hp1 : 0 < l1.length := List.length_pos.mpr h1.1
  have hp2 : 0 < l2.length := List.length_pos.mpr h2.1
  unfold absGt
  rcases lt_trichotomy l1.length l2.length with hlt | heq | hgt
  · rw [if_neg (by omega), if_pos hlt]
    have hne : l2 ≠ [0] := by
      intro hc
      rw [hc] at hlt
      simp only [List.length_singleton] at hlt
      omega
    have hlo : 10 ^ (l2.length - 1) ≤ valD l2 := valD_ge_pow h2 hne
    have hhi : valD l1 < 10 ^ l1.length := valD_lt_pow h1.2.1
    have hp : 10 ^ l1.length ≤ 10 ^ (l2.length - 1) :=
      Nat.pow_le_pow_right (by norm_num) (by omega)
    constructor
    · intro hc
      exact absurd hc (by simp)
    · intro hv
      exfalso
      omega
  · rw [if_neg (by omega), if_neg (by omega)]
    have := lexGtBE_iff (a := l1.reverse) (b := l2.reverse)
      (by simp [heq]) (by simpa using h1.2.1) (by simpa using h2.2.1)
    simpa using this
  · rw [if_pos hgt]
    simp only [true_iff]
    have hne : l1 ≠ [0] := by
      intro hc
      rw [hc] at hgt
      simp only [List.length_singleton] at hgt
      omega
    have hlo : 10 ^ (l1.length - 1) ≤ valD l1 := valD_ge_pow h1 hne
    have hhi : valD l2 < 10 ^ l2.length := valD_lt_pow h2.2.1
    have hp : 10 ^ l2.length ≤ 10 ^ (l1.length - 1) :=
      Nat.pow_le_pow_right (by norm_num) (by omega)
    omega

theorem ha_int_eq_true_iff {n m : HaInt} : ha_int_eq n m = true ↔ n = m := by
  cases n with
  | mk s1 d1 =>
    cases m with
    | mk s2 d2 =>
      simp [ha_int_eq]

theorem toInt_nonneg_of_sign {n : HaInt} (h : n.sign = true) : 0 ≤ toInt n := by
  simp [toInt, h]

theorem toInt_neg_of_sign {n : HaInt} (hw : WF n) (h : n.sign = false) :
    toInt n < 0 := by
  have hne : n.digits ≠ [0] := by
    intro hc
    rw [hw.2 hc] at h
    simp at h
  have := valD_pos_of_ne_zero hw.1 hne
  simp [toInt, h]
  omega

theorem toInt_inj {n m : HaInt} (hn : WF n) (hm : WF m)
    (h : toInt n = toInt m) : n = m := by
  cases n with
  | mk s1 d1 =>
    cases m with
    | mk s2 d2 =>
      match s1, s2 with
      | true, true =>
        simp only [toInt, if_true] at h
        have hv : valD d1 = valD d2 := by exact_mod_cast h
        have hd : d1 = d2 := WFd_valD_inj hn.1 hm.1 hv
        rw [hd]
      | false, false =>
        simp only [toInt, if_false, Bool.false_eq_true, neg_inj] at h
        have hv : valD d1 = valD d2 := by exact_mod_cast h
        have hd : d1 = d2 := WFd_valD_inj hn.1 hm.1 hv
        rw [hd]
      | true, false =>
        exfalso
        have h1 : (0 : Int) ≤ toInt ⟨true, d1⟩ := toInt_nonneg_of_sign rfl
        have h2 : toInt ⟨false, d2⟩ < 0 := toInt_neg_of_sign hm rfl
        omega
      | false, true =>
        exfalso
        have h1 : (0 : Int) ≤ toInt ⟨true, d2⟩ := toInt_nonneg_of_sign rfl
        have h2 : toInt ⟨false, d1⟩ < 0 := toInt_neg_of_sign hn rfl
        omega

theorem ha_int_gt_iff {n m : HaInt} (hn : WF n) (hm : WF m) :
    ha_int_gt n m = true ↔ toInt m < toInt n := by
  cases n with
  | mk s1 d1 =>
    cases m with
    | mk s2 d2 =>
      match s1, s2 with
      | true, false =>
        have h1 : (0 : Int) ≤ toInt ⟨true, d1⟩ := toInt_nonneg_of_sign rfl
        have h2 : toInt ⟨false, d2⟩ < 0 := toInt_neg_of_sign hm rfl
        simp only [ha_int_gt]
        norm_num
        omega
      | false, true =>
        have h1 : (0 : Int) ≤ toInt ⟨true, d2⟩ := toInt_nonneg_of_sign rfl
        have h2 : toInt ⟨false, d1⟩ < 0 := toInt_neg_of_sign hn rfl
        simp only [ha_int_gt]
        norm_num
        omega
      | true, true =>
        simp only [ha_int_gt]
        norm_num
        rw [absGt_iff hn.1 hm.1]
        simp [toInt]
      | false, false =>
        simp only [ha_int_gt]
        norm_num
        rw [absGt_iff hm.1 hn.1]
        simp [toInt]

/-! Parsing and printing. -/

theorem isValidChar_digit {d : Nat} (h : d < 10) : (d + 48).isValidChar := by
  left
  omega

theorem toNat_digitToChar {d : Nat} (h : d < 10) :
    (digitToChar d).toNat = d + 48 := by
  unfold digitToChar Char.ofNat
  rw [dif_pos (isValidChar_digit h)]
  rfl

theorem charToDigit_digitToChar {d : Nat} (h : d < 10) :
    charToDigit (digitToChar d) = d := by
  unfold charToDigit
  rw [toNat_digitToChar h]
  omega

theorem isDigitCh_iff {c : Char} :
    isDigitCh c = true ↔ 48 ≤ c.toNat ∧ c.toNat ≤ 57 := by
  simp [isDigitCh]

theorem digitToChar_charToDigit {c : Char} (h : isDigitCh c = true) :
    digitToChar (charToDigit c) = c := by
  rw [isDigitCh_iff] at h
  unfold digitToChar charToDigit
  have he : c.toNat - 48 + 48 = c.toNat := by omega
  rw [he, Char.ofNat_toNat]

theorem charToDigit_lt {c : Char} (h : isDigitCh c = true) :
    charToDigit c < 10 := by
  rw [isDigitCh_iff] at h
  unfold charToDigit
  omega

theorem char_of_toNat_48 {c : Char} (h : c.toNat = 48) : c = '0' := by
  have h1 := Char.ofNat_toNat c
  rw [h] at h1
  have h2 : Char.ofNat 48 = '0' := by decide
  rw [← h1, h2]

theorem isDigitCh_digitToChar {d : Nat} (h : d < 10) :
    isDigitCh (digitToChar d) = true := by
  rw [isDigitCh_iff, toNat_digitToChar h]
  omega

theorem digitToChar_ne_dash {d : Nat} (h : d < 10) : digitToChar d ≠ '-' := by
  intro hc
  have := toNat_digitToChar h
  rw [hc] at this
  have h45 : ('-' : Char).toNat = 45 := by decide
  omega

theorem digitToChar_eq_zero_iff {d : Nat} (h : d < 10) :
    digitToChar d = '0' ↔ d = 0 := by
  constructor
  · intro hc
    have := toNat_digitToChar h
    rw [hc] at this
    have h48 : ('0' : Char).toNat = 48 := by decide
    omega
  · intro hd
    subst hd
    decide

/-- Every successfully parsed integer is well-formed. -/
theorem WF_create {s : String} {n : HaInt} (h : ha_int_create s = some n) :
    WF n := by
  unfold ha_int_create at h
  match hs : s.data with
  | [] => rw [hs] at h; exact absurd h (by simp)
  | c :: rest =>
    rw [hs] at h
    simp only at h
    by_cases hc : c = '-'
    · rw [if_pos hc] at h
      match rest with
      | [] => exact absurd h (by simp)
      | d :: t =>
        simp only at h
        by_cases hr : d.toNat < 49 ∨ 57 < d.toNat
        · rw [if_pos hr] at h
          exact absurd h (by simp)
        · rw [if_neg hr] at h
          by_cases hall : (d :: t).all isDigitCh
          · rw [if_pos hall] at h
            cases h
            have hmem : ∀ x ∈ ((d :: t).map charToDigit).reverse, x < 10 := by
              intro x hx
              simp only [List.mem_reverse, List.mem_map] at hx
              obtain ⟨ch, hch, rfl⟩ := hx
              exact charToDigit_lt (by
                rw [List.all_eq_true] at hall
                exact hall ch hch)
            have hlast : ((d :: t).map charToDigit).reverse.getLast? =
                some (charToDigit d) := by
              rw [List.getLast?_reverse]
              simp
            refine ⟨⟨by simp, hmem, ?_⟩, ?_⟩
            · intro hz
              rw [hlast] at hz
              have : charToDigit d = 0 := by injection hz
              unfold charToDigit at this
              omega
            · intro hz
              exfalso
              simp only at hz
              rw [hz] at hlast
              have : charToDigit d = 0 := by
                simp at hlast
                omega
              unfold charToDigit at this
              omega
          · rw [if_neg hall] at h
            exact absurd h (by simp)
    · rw [if_neg hc] at h
      by_cases hz : c = '0' ∧ rest ≠ []
      · rw [if_pos hz] at h
        exact absurd h (by simp)
      · rw [if_neg hz] at h
        by_cases hall : (c :: rest).all isDigitCh
        · rw [if_pos hall] at h
          cases h
          have hcd : isDigitCh c = true := by
            rw [List.all_eq_true] at hall
            exact hall c (by simp)
          have hmem : ∀ x ∈ ((c :: rest).map charToDigit).reverse, x < 10 := by
            intro x hx
            simp only [List.mem_reverse, List.mem_map] at hx
            obtain ⟨ch, hch, rfl⟩ := hx
            exact charToDigit_lt (by
              rw [List.all_eq_true] at hall
              exact hall ch hch)
          have hlast : ((c :: rest).map charToDigit).reverse.getLast? =
              some (charToDigit c) := by
            rw [List.getLast?_reverse]
            simp
          refine ⟨⟨by simp, hmem, ?_⟩, fun _ => rfl⟩
          intro hzz
          rw [hlast] at hzz
          have hc0 : charToDigit c = 0 := by injection hzz
          have hc48 : c.toNat = 48 := by
            rw [isDigitCh_iff] at hcd
            unfold charToDigit at hc0
            omega
          have : c = '0' := char_of_toNat_48 hc48
          have hre : rest = [] := by
            by_contra hrne
            exact hz ⟨this, hrne⟩
          subst hre
          simp [this, charToDigit]
        · rw [if_neg hall] at h
          exact absurd h (by simp)

/-- Printing inverts parsing: a successfully parsed string prints back to
itself. -/
theorem create_to_str {s : String} {n : HaInt} (h : ha_int_create s = some n) :
    ha_int_to_str n = s := by
  obtain ⟨sd⟩ := s
  unfold ha_int_create at h
  match sd with
  | [] => exact absurd h (by simp)
  | c :: rest =>
    simp only at h
    by_cases hc : c = '-'
    · rw [if_pos hc] at h
      match rest with
      | [] => exact absurd h (by simp)
      | d :: t =>
        simp only at h
        by_cases hr : d.toNat < 49 ∨ 57 < d.toNat
        · rw [if_pos hr] at h
          exact absurd h (by simp)
        · rw [if_neg hr] at h
          by_cases hall : (d :: t).all isDigitCh
          · rw [if_pos hall] at h
            cases h
            unfold ha_int_to_str
            simp only [List.reverse_reverse, List.map_map]
            have hmap : (d :: t).map (digitToChar ∘ charToDigit) = d :: t := by
              rw [List.map_congr_left (g := id), List.map_id]
              intro a ha
              rw [List.all_eq_true] at hall
              exact digitToChar_charToDigit (hall a ha)
            rw [hmap, hc]
            rfl
          · rw [if_neg hall] at h
            exact absurd h (by simp)
    · rw [if_neg hc] at h
      by_cases hz : c = '0' ∧ rest ≠ []
      · rw [if_pos hz] at h
        exact absurd h (by simp)
      · rw [if_neg hz] at h
        by_cases hall : (c :: rest).all isDigitCh
        · rw [if_pos hall] at h
          cases h
          unfold ha_int_to_str
          simp only [List.reverse_reverse, List.map_map]
          have hmap : (c :: rest).map (digitToChar ∘ charToDigit) = c :: rest := by
            rw [List.map_congr_left (g := id), List.map_id]
            intro a ha
            rw [List.all_eq_true] at hall
            exact digitToChar_charToDigit (hall a ha)
          rw [hmap]
          rfl
        · rw [if_neg hall] at h
          exact absurd h (by simp)

/-- Parsing inverts printing on every well-formed integer. -/
theorem to_str_create {n : HaInt} (hw : WF n) :
    ha_int_create (ha_int_to_str n) = some n := by
  obtain ⟨sg, ds⟩ := n
  have hmem : ∀ x ∈ ds, x < 10 := hw.1.2.1
  have hrt : (ds.reverse.map digitToChar).map charToDigit = ds.reverse := by
    rw [List.map_map, List.map_congr_left (g := id), List.map_id]
    intro a ha
    exact charToDigit_digitToChar (hmem a (by simpa using ha))
  have hne : ds ≠ [] := hw.1.1
  match hds : ds.reverse with
  | [] => exact absurd (by simpa using congrArg List.reverse hds) hne
  | e :: t =>
    have he10 : e < 10 := by
      have : e ∈ ds := by
        have : e ∈ ds.reverse := by rw [hds]; simp
        simpa using this
      exact hmem e this
    have hlast : ds.getLast? = some e := by
      rw [← List.head?_reverse, hds]
      rfl
    match sg with
    | true =>
      unfold ha_int_to_str ha_int_create
      simp only [if_true, List.nil_append, hds, List.map_cons]
      rw [if_neg (by exact digitToChar_ne_dash he10)]
      have hzcase : ¬(digitToChar e = '0' ∧ t.map digitToChar ≠ []) := by
        rintro ⟨he0, htne⟩
        rw [digitToChar_eq_zero_iff he10] at he0
        subst he0
        have : ds = [0] := hw.1.2.2 hlast
        rw [this] at hds
        simp at hds
        exact htne (by simp [hds])
      rw [if_neg hzcase]
      have hall : ((digitToChar e :: t.map digitToChar).all isDigitCh) = true := by
        rw [List.all_eq_true]
        intro a ha
        rw [show (digitToChar e :: t.map digitToChar) = (e :: t).map digitToChar
          from by simp] at ha
        rw [List.mem_map] at ha
        obtain ⟨x, hx, rfl⟩ := ha
        have : x ∈ ds := by
          have : x ∈ ds.reverse := by rw [hds]; exact hx
          simpa using this
        exact isDigitCh_digitToChar (hmem x this)
      rw [if_pos hall]
      have hfix : (charToDigit (digitToChar e) ::
          (t.map digitToChar).map charToDigit).reverse = ds := by
        rw [show charToDigit (digitToChar e) :: (t.map digitToChar).map charToDigit
            = ((e :: t).map digitToChar).map charToDigit from by simp]
        rw [← hds, hrt]
        simp
      rw [hfix]
    | false =>
      unfold ha_int_to_str ha_int_create
      simp only [Bool.false_eq_true, if_false, hds, List.map_cons,
        List.singleton_append]
      have he0 : e ≠ 0 := by
        intro hc
        subst hc
        have : ds = [0] := hw.1.2.2 hlast
        have := hw.2 this
        simp at this
      rw [if_pos trivial]
      rw [if_neg (by
        rw [toNat_digitToChar he10]
        omega)]
      have hall : ((digitToChar e :: t.map digitToChar).all isDigitCh) = true := by
        rw [List.all_eq_true]
        intro a ha
        rw [show (digitToChar e :: t.map digitToChar) = (e :: t).map digitToChar
          from by simp] at ha
        rw [List.mem_map] at ha
        obtain ⟨x, hx, rfl⟩ := ha
        have : x ∈ ds := by
          have : x ∈ ds.reverse := by rw [hds]; exact hx
          simpa using this
        exact isDigitCh_digitToChar (hmem x this)
      rw [if_pos hall]
      have hfix2 : (charToDigit (digitToChar e) ::
          (t.map digitToChar).map charToDigit).reverse = ds := by
        rw [show charToDigit (digitToChar e) :: (t.map digitToChar).map charToDigit
            = ((e :: t).map digitToChar).map charToDigit from by simp]
        rw [← hds, hrt]
        simp
      rw [hfix2]

/-- The parser accepts exactly the strings described by the claim's
grammar. -/
theorem create_isSome (s : String) :
    (ha_int_create s).isSome = validIntString s := by
  obtain ⟨sd⟩ := s
  unfold ha_int_create validIntString
  match sd with
  | [] => rfl
  | c :: rest =>
    simp only []
    by_cases hc : c = '-'
    · rw [if_pos hc, if_pos hc]
      match rest with
      | [] => rfl
      | d :: t =>
        simp only [List.isEmpty_cons, Bool.not_false, Bool.true_and]
        by_cases hall : (d :: t).all isDigitCh
        · rw [hall]
          simp only [Bool.true_and]
          by_cases hr : d.toNat < 49 ∨ 57 < d.toNat
          · rw [if_pos hr]
            have hdd : isDigitCh d = true := by
              rw [List.all_eq_true] at hall
              exact hall d (by simp)
            rw [isDigitCh_iff] at hdd
            have h48 : d.toNat = 48 := by omega
            have hd0 : d = '0' := char_of_toNat_48 h48
            simp [hd0]
          · rw [if_neg hr]
            rw [if_pos trivial]
            have hd0 : ¬ d = '0' := by
              intro hcc
              subst hcc
              have : ('0' : Char).toNat = 48 := by decide
              omega
            simp [List.headD, hd0]
        · have hallf : (d :: t).all isDigitCh = false :=
            Bool.not_eq_true _ ▸ (by simpa using hall)
          rw [hallf]
          simp only [Bool.false_and, Bool.and_false]
          by_cases hr : d.toNat < 49 ∨ 57 < d.toNat
          · rw [if_pos hr]
            rfl
          · rw [if_neg hr]
            rw [if_neg (by simp only [Bool.not_eq_true] at hall; simp [hall])]
            rfl
    · rw [if_neg hc, if_neg hc]
      by_cases hz : c = '0' ∧ rest ≠ []
      · rw [if_pos hz]
        have h1 : (c == '0') = true := by simp [hz.1]
        have h2 : rest.isEmpty = false := by
          rcases rest with _ | ⟨x, xs⟩
          · exact absurd rfl hz.2
          · rfl
        simp [h1, h2]
      · rw [if_neg hz]
        have hor : (!(c == '0') || rest.isEmpty) = true := by
          by_cases hc0 : c = '0'
          · have : rest = [] := by
              by_contra hrne
              exact hz ⟨hc0, hrne⟩
            simp [this]
          · simp [hc0]
        rw [hor]
        by_cases hall : (c :: rest).all isDigitCh
        · rw [if_pos hall, hall]
          rfl
        · rw [if_neg (by simp only [Bool.not_eq_true] at hall; simp [hall])]
          have hallf : (c :: rest).all isDigitCh = false := by
            simp only [Bool.not_eq_true] at hall
            exact hall
          rw [hallf]
          rfl

/-! Addition and subtraction. -/

theorem valD_headD_tail (l : List Nat) :
    valD l = l.headD 0 + 10 * valD l.tail := by
  cases l <;> simp [valD]

theorem addLoop_val : ∀ (k : Nat) (ns ms : List Nat) (c : Nat),
    ns.length ≤ k → ms.length ≤ k → c + valD ns + valD ms < 10 ^ k →
    valD (addLoop k ns ms c) = c + valD ns + valD ms := by
  intro k
  induction k with
  | zero =>
    intro ns ms c _ _ hb
    simp only [pow_zero, Nat.lt_one_iff] at hb
    simp [addLoop, valD, hb]
  | succ k ih =>
    intro ns ms c hn hm hb
    have hvn := valD_headD_tail ns
    have hvm := valD_headD_tail ms
    simp only [addLoop, valD]
    have hln : ns.tail.length ≤ k := by
      rcases ns with _ | ⟨x, xs⟩
      · simp
      · simp at hn ⊢
        omega
    have hlm : ms.tail.length ≤ k := by
      rcases ms with _ | ⟨x, xs⟩
      · simp
      · simp at hm ⊢
        omega
    have hs : (c + ns.headD 0 + ms.headD 0) / 10 + valD ns.tail + valD ms.tail
        < 10 ^ k := by
      rw [pow_succ] at hb
      omega
    rw [ih ns.tail ms.tail _ hln hlm hs]
    omega

theorem addLoop_digits : ∀ (k : Nat) (ns ms : List Nat) (c : Nat),
    ∀ d ∈ addLoop k ns ms c, d < 10 := by
  intro k
  induction k with
  | zero => intro ns ms c d hd; simp [addLoop] at hd
  | succ k ih =>
    intro ns ms c d hd
    simp only [addLoop, List.mem_cons] at hd
    rcases hd with rfl | hd
    · omega
    · exact ih _ _ _ d hd

theorem addLoop_ne_nil (k : Nat) (ns ms : List Nat) (c : Nat) (h : 0 < k) :
    addLoop k ns ms c ≠ [] := by
  match k, h with
  | k + 1, _ => simp [addLoop]

theorem absAddD_correct {ns ms : List Nat}
    (hn : ∀ d ∈ ns, d < 10) (hm : ∀ d ∈ ms, d < 10) :
    valD (absAddD ns ms) = valD ns + valD ms ∧ WFd (absAddD ns ms) := by
  have hvn : valD ns < 10 ^ ns.length := valD_lt_pow hn
  have hvm : valD ms < 10 ^ ms.length := valD_lt_pow hm
  have hb : 0 + valD ns + valD ms < 10 ^ (max ns.length ms.length + 1) := by
    have h1 : 10 ^ ns.length ≤ 10 ^ max ns.length ms.length :=
      Nat.pow_le_pow_right (by norm_num) (le_max_left _ _)
    have h2 : 10 ^ ms.length ≤ 10 ^ max ns.length ms.length :=
      Nat.pow_le_pow_right (by norm_num) (le_max_right _ _)
    rw [pow_succ]
    omega
  constructor
  · unfold absAddD
    rw [valD_trim, addLoop_val _ _ _ _ (by omega) (by omega) hb]
    omega
  · exact WFd_trim (addLoop_ne_nil _ _ _ _ (by omega))
      (addLoop_digits _ _ _ _)

theorem subLoop_val : ∀ (k : Nat) (bs ss : List Nat) (c : Int),
    bs.length ≤ k → ss.length ≤ k →
    (∀ d ∈ bs, d < 10) → (∀ d ∈ ss, d < 10) →
    (c = 0 ∨ c = -1) →
    0 ≤ c + (valD bs : Int) - valD ss →
    c + (valD bs : Int) - valD ss < 10 ^ k →
    (valD (subLoop k bs ss c) : Int) = c + valD bs - valD ss := by
  intro k
  induction k with
  | zero =>
    intro bs ss c _ _ _ _ hc hlo hhi
    simp only [pow_zero] at hhi
    simp [subLoop, valD]
    omega
  | succ k ih =>
    intro bs ss c hlb hls hdb hds hc hlo hhi
    have hvb := valD_headD_tail bs
    have hvs := valD_headD_tail ss
    have hb0 : bs.headD 0 < 10 := by
      rcases bs with _ | ⟨x, xs⟩
      · simp
      · exact hdb x (by simp)
    have hs0 : ss.headD 0 < 10 := by
      rcases ss with _ | ⟨x, xs⟩
      · simp
      · exact hds x (by simp)
    have hlb' : bs.tail.length ≤ k := by
      rcases bs with _ | ⟨x, xs⟩
      · simp
      · simp at hlb ⊢
        omega
    have hls' : ss.tail.length ≤ k := by
      rcases ss with _ | ⟨x, xs⟩
      · simp
      · simp at hls ⊢
        omega
    have hdb' : ∀ d ∈ bs.tail, d < 10 := fun d hd =>
      hdb d (List.mem_of_mem_tail hd)
    have hds' : ∀ d ∈ ss.tail, d < 10 := fun d hd =>
      hds d (List.mem_of_mem_tail hd)
    simp only [subLoop]
    set d : Int := c + (bs.headD 0 : Int) - (ss.headD 0 : Int) with hd
    have hdrange : -10 ≤ d ∧ d ≤ 9 := by
      constructor <;> rcases hc with rfl | rfl <;> omega
    by_cases hneg : d < 0
    · rw [if_pos hneg]
      have hrec : (valD (subLoop k bs.tail ss.tail (-1)) : Int)
          = -1 + valD bs.tail - valD ss.tail := by
        apply ih _ _ _ hlb' hls' hdb' hds' (Or.inr rfl)
        · rw [pow_succ] at hhi
          omega
        · rw [pow_succ] at hhi
          omega
      have htn : ((d + 10).toNat : Int) = d + 10 := Int.toNat_of_nonneg (by omega)
      have hmod : (d + 10).toNat % 10 = (d + 10).toNat := Nat.mod_eq_of_lt (by omega)
      simp only [valD]
      rw [hmod]
      push_cast
      rw [hrec, htn]
      omega
    · rw [if_neg hneg]
      have hrec : (valD (subLoop k bs.tail ss.tail 0) : Int)
          = 0 + valD bs.tail - valD ss.tail := by
        apply ih _ _ _ hlb' hls' hdb' hds' (Or.inl rfl)
        · rw [pow_succ] at hhi
          omega
        · rw [pow_succ] at hhi
          omega
      have htn : (d.toNat : Int) = d := Int.toNat_of_nonneg (by omega)
      have hmod : d.toNat % 10 = d.toNat := Nat.mod_eq_of_lt (by omega)
      simp only [valD]
      rw [hmod]
      push_cast
      rw [hrec, htn]
      omega

theorem subLoop_digits : ∀ (k : Nat) (bs ss : List Nat) (c : Int),
    ∀ d ∈ subLoop k bs ss c, d < 10 := by
  intro k
  induction k with
  | zero => intro bs ss c d hd; simp [subLoop] at hd
  | succ k ih =>
    intro bs ss c d hd
    simp only [subLoop] at hd
    by_cases hneg : c + (bs.headD 0 : Int) - (ss.headD 0 : Int) < 0
    · rw [if_pos hneg] at hd
      simp only [List.mem_cons] at hd
      rcases hd with rfl | hd
      · exact Nat.mod_lt _ (by norm_num)
      · exact ih _ _ _ d hd
    · rw [if_neg hneg] at hd
      simp only [List.mem_cons] at hd
      rcases hd with rfl | hd
      · exact Nat.mod_lt _ (by norm_num)
      · exact ih _ _ _ d hd

theorem subLoop_ne_nil (k : Nat) (bs ss : List Nat) (c : Int) (h : 0 < k) :
    subLoop k bs ss c ≠ [] := by
  match k, h with
  | k + 1, _ =>
    simp only [subLoop]
    by_cases hneg : c + (bs.headD 0 : Int) - (ss.headD 0 : Int) < 0
    · rw [if_pos hneg]; simp
    · rw [if_neg hneg]; simp

theorem absSubD_correct {ns ms : List Nat} (h1 : WFd ns) (h2 : WFd ms) :
    valD (absSubD ns ms)
      = max (valD ns) (valD ms) - min (valD ns) (valD ms) ∧
    WFd (absSubD ns ms) := by
  have hp1 : 0 < ns.length := List.length_pos.mpr h1.1
  have hp2 : 0 < ms.length := List.length_pos.mpr h2.1
  have hgt := absGt_iff h1 h2
  unfold absSubD
  by_cases hcmp : absGt ns ms
  · rw [hcmp]
    simp only [if_true]
    have hlt : valD ms < valD ns := hgt.mp hcmp
    have hval : (valD (subLoop (max ns.length ms.length) ns ms 0) : Int)
        = 0 + valD ns - valD ms := by
      apply subLoop_val _ _ _ _ (le_max_left _ _) (le_max_right _ _)
        h1.2.1 h2.2.1 (Or.inl rfl) (by omega)
      have hns : valD ns < 10 ^ ns.length := valD_lt_pow h1.2.1
      have hle : (10 : Nat) ^ ns.length ≤ 10 ^ max ns.length ms.length :=
        Nat.pow_le_pow_right (by norm_num) (le_max_left _ _)
      have hnsInt : (valD ns : Int) < (10 : Int) ^ ns.length := by
        exact_mod_cast hns
      have hleInt : (10 : Int) ^ ns.length ≤ (10 : Int) ^ max ns.length ms.length := by
        exact_mod_cast hle
      omega
    constructor
    · rw [valD_trim]
      omega
    · exact WFd_trim (subLoop_ne_nil _ _ _ _ (by omega)) (subLoop_digits _ _ _ _)
  · have hcmpf : absGt ns ms = false := by
      simp only [Bool.not_eq_true] at hcmp
      exact hcmp
    rw [hcmpf]
    simp only [Bool.false_eq_true, if_false]
    have hle' : valD ns ≤ valD ms := by
      rcases Nat.lt_or_ge (valD ms) (valD ns) with hx | hx
      · exact absurd (hgt.mpr hx) (by simp [hcmpf])
      · exact hx
    have hval : (valD (subLoop (max ns.length ms.length) ms ns 0) : Int)
        = 0 + valD ms - valD ns := by
      apply subLoop_val _ _ _ _ (le_max_right _ _) (le_max_left _ _)
        h2.2.1 h1.2.1 (Or.inl rfl) (by omega)
      have hms : valD ms < 10 ^ ms.length := valD_lt_pow h2.2.1
      have hlep : (10 : Nat) ^ ms.length ≤ 10 ^ max ns.length ms.length :=
        Nat.pow_le_pow_right (by norm_num) (le_max_right _ _)
      have hmsInt : (valD ms : Int) < (10 : Int) ^ ms.length := by
        exact_mod_cast hms
      have hlepInt : (10 : Int) ^ ms.length ≤ (10 : Int) ^ max ns.length ms.length := by
        exact_mod_cast hlep
      omega
    constructor
    · rw [valD_trim]
      omega
    · exact WFd_trim (subLoop_ne_nil _ _ _ _ (by omega)) (subLoop_digits _ _ _ _)

theorem ha_int_add_correct {n m : HaInt} (hn : WF n) (hm : WFd m.digits) :
    toInt (ha_int_add n m) = toInt n + toInt m ∧ WF (ha_int_add n m) := by
  have hsub := absSubD_correct hn.1 hm
  have hadd := absAddD_correct hn.1.2.1 hm.2.1
  have hgt1 := absGt_iff hn.1 hm
  have hgt2 := absGt_iff hm hn.1
  unfold ha_int_add
  by_cases hs : n.sign = m.sign
  · rw [if_pos hs]
    refine ⟨?_, ⟨hadd.2, ?_⟩⟩
    · unfold toInt
      simp only []
      cases hsn : n.sign
      · rw [hsn] at hs
        rw [← hs]
        simp only [Bool.false_eq_true, if_false, hadd.1]
        push_cast
        ring
      · rw [hsn] at hs
        rw [← hs]
        simp only [if_true, hadd.1]
        push_cast
        ring
    · intro hz
      simp only [] at hz
      have hv0 : valD (absAddD n.digits m.digits) = 0 := by rw [hz]; rfl
      rw [hadd.1] at hv0
      have hn0 : valD n.digits = 0 := by omega
      exact hn.2 ((valD_eq_zero_iff hn.1).mp hn0)
  · rw [if_neg hs]
    by_cases hg1 : absGt n.digits m.digits
    · have hlt : valD m.digits < valD n.digits := hgt1.mp hg1
      have hval : valD (absSubD n.digits m.digits)
          = valD n.digits - valD m.digits := by
        rw [hsub.1]
        omega
      simp only [hg1, if_true]
      refine ⟨?_, ⟨hsub.2, ?_⟩⟩
      · unfold toInt
        simp only []
        cases hsn : n.sign
        · have hsm : m.sign = true := by
            cases hsm : m.sign
            · rw [hsn, hsm] at hs
              exact absurd rfl hs
            · rfl
          rw [hsm]
          simp only [Bool.false_eq_true, if_false, if_true, hval]
          omega
        · have hsm : m.sign = false := by
            cases hsm : m.sign
            · rfl
            · rw [hsn, hsm] at hs
              exact absurd rfl hs
          rw [hsm]
          simp only [Bool.false_eq_true, if_false, if_true, hval]
          omega
      · intro hz
        exfalso
        simp only [] at hz
        have hv0 : valD (absSubD n.digits m.digits) = 0 := by rw [hz]; rfl
        omega
    · by_cases hg2 : absGt m.digits n.digits
      · have hlt : valD n.digits < valD m.digits := hgt2.mp hg2
        have hval : valD (absSubD n.digits m.digits)
            = valD m.digits - valD n.digits := by
          rw [hsub.1]
          omega
        have hg1f : absGt n.digits m.digits = false := by
          simp only [Bool.not_eq_true] at hg1
          exact hg1
        simp only [hg1f, Bool.false_eq_true, if_false, hg2, if_true]
        refine ⟨?_, ⟨hsub.2, ?_⟩⟩
        · unfold toInt
          simp only []
          cases hsn : n.sign
          · have hsm : m.sign = true := by
              cases hsm : m.sign
              · rw [hsn, hsm] at hs
                exact absurd rfl hs
              · rfl
            rw [hsm]
            simp only [Bool.false_eq_true, if_false, if_true, hval]
            omega
          · have hsm : m.sign = false := by
              cases hsm : m.sign
              · rfl
              · rw [hsn, hsm] at hs
                exact absurd rfl hs
            rw [hsm]
            simp only [Bool.false_eq_true, if_false, if_true, hval]
            omega
        · intro hz
          exfalso
          simp only [] at hz
          have hv0 : valD (absSubD n.digits m.digits) = 0 := by rw [hz]; rfl
          omega
      · have hle1 : valD n.digits ≤ valD m.digits := by
          rcases Nat.lt_or_ge (valD m.digits) (valD n.digits) with hx | hx
          · exact absurd (hgt1.mpr hx) hg1
          · exact hx
        have hle2 : valD m.digits ≤ valD n.digits := by
          rcases Nat.lt_or_ge (valD n.digits) (valD m.digits) with hx | hx
          · exact absurd (hgt2.mpr hx) hg2
          · exact hx
        have heq : valD n.digits = valD m.digits := le_antisymm hle1 hle2
        have hval : valD (absSubD n.digits m.digits) = 0 := by
          rw [hsub.1]
          omega
        have hg1f : absGt n.digits m.digits = false := by
          simp only [Bool.not_eq_true] at hg1
          exact hg1
        have hg2f : absGt m.digits n.digits = false := by
          simp only [Bool.not_eq_true] at hg2
          exact hg2
        simp only [hg1f, hg2f, Bool.false_eq_true, if_false]
        refine ⟨?_, ⟨hsub.2, fun _ => rfl⟩⟩
        unfold toInt
        simp only [if_true, hval]
        cases hsn : n.sign
        · have hsm : m.sign = true := by
            cases hsm : m.sign
            · rw [hsn, hsm] at hs
              exact absurd rfl hs
            · rfl
          rw [hsm]
          simp only [Bool.false_eq_true, if_false, if_true]
          omega
        · have hsm : m.sign = false := by
            cases hsm : m.sign
            · rfl
            · rw [hsn, hsm] at hs
              exact absurd rfl hs
          rw [hsm]
          simp only [Bool.false_eq_true, if_false, if_true]
          omega

/-- `ha_int_sub(n, m)` coincides with `ha_int_add` applied to `m` with the
sign flag flipped. -/
theorem ha_int_sub_eq_add_flip (n m : HaInt) :
    ha_int_sub n m = ha_int_add n ⟨!m.sign, m.digits⟩ := by
  cases hsn : n.sign
  · cases hsm : m.sign
    · simp [ha_int_sub, ha_int_add, hsn, hsm]
    · simp [ha_int_sub, ha_int_add, hsn, hsm]
  · cases hsm : m.sign
    · simp [ha_int_sub, ha_int_add, hsn, hsm]
    · simp [ha_int_sub, ha_int_add, hsn, hsm]

theorem toInt_flip (m : HaInt) : toInt ⟨!m.sign, m.digits⟩ = -toInt m := by
  cases hsm : m.sign
  · simp [toInt, hsm]
  · simp [toInt, hsm]

theorem ha_int_sub_correct {n m : HaInt} (hn : WF n) (hm : WFd m.digits) :
    toInt (ha_int_sub n m) = toInt n - toInt m ∧ WF (ha_int_sub n m) := by
  rw [ha_int_sub_eq_add_flip]
  have h := ha_int_add_correct (m := ⟨!m.sign, m.digits⟩) hn hm
  rw [toInt_flip] at h
  exact ⟨by rw [h.1]; ring, h.2⟩

/-! Multiplication. -/

theorem mulRow_structure (d : Nat) : ∀ (ms rest : List Nat) (c : Nat),
    ms.length < rest.length →
    ∃ out, mulRow d ms rest c = out ++ rest.drop (ms.length + 1) ∧
      out.length = ms.length + 1 := by
  intro ms
  induction ms with
  | nil =>
    intro rest c _
    exact ⟨[c], by simp [mulRow], by simp⟩
  | cons m0 ms ih =>
    intro rest c hlen
    have hlt : ms.length < rest.tail.length := by
      rcases rest with _ | ⟨x, xs⟩
      · simp at hlen
      · simp at hlen ⊢
        omega
    obtain ⟨out, hout, hlen'⟩ := ih rest.tail _ hlt
    refine ⟨(d * m0 + rest.headD 0 + c) % 10 :: out, ?_, by simp [hlen']⟩
    simp only [mulRow]
    rw [hout]
    have : rest.tail.drop (ms.length + 1) = rest.drop (ms.length + 1 + 1) := by
      rcases rest with _ | ⟨x, xs⟩
      · simp
      · simp
    rw [this]
    simp

theorem mulRow_val (d : Nat) : ∀ (ms rest : List Nat) (c : Nat),
    ms.length < rest.length → rest.getD ms.length 1 = 0 →
    valD (mulRow d ms rest c) = d * valD ms + c + valD rest := by
  intro ms
  induction ms with
  | nil =>
    intro rest c hlen hz
    rcases rest with _ | ⟨r0, rs⟩
    · simp at hlen
    · simp only [List.getD, List.length_nil, List.getElem?_cons_zero] at hz
      simp only [mulRow, valD, List.tail_cons]
      simp at hz
      simp [hz, valD]
  | cons m0 ms ih =>
    intro rest c hlen hz
    rcases rest with _ | ⟨r0, rs⟩
    · simp at hlen
    · have hlt : ms.length < rs.length := by
        simp at hlen
        omega
      have hz' : rs.getD ms.length 1 = 0 := by
        simpa [List.getD] using hz
      simp only [mulRow, List.headD_cons, List.tail_cons, valD]
      rw [ih rs _ hlt hz']
      have hmod : (d * m0 + r0 + c) % 10 + 10 * ((d * m0 + r0 + c) / 10)
          = d * m0 + r0 + c := by omega
      ring_nf
      omega

theorem mulRow_digits (d : Nat) : ∀ (ms rest : List Nat) (c : Nat),
    d < 10 → (∀ x ∈ ms, x < 10) → (∀ x ∈ rest, x < 10) → c < 10 →
    ∀ x ∈ mulRow d ms rest c, x < 10 := by
  intro ms
  induction ms with
  | nil =>
    intro rest c _ _ hrest hc x hx
    simp only [mulRow, List.mem_cons] at hx
    rcases hx with rfl | hx
    · exact hc
    · exact hrest x (List.mem_of_mem_tail hx)
  | cons m0 ms ih =>
    intro rest c hd hms hrest hc x hx
    have hm0 : m0 < 10 := hms m0 (by simp)
    have hr0 : rest.headD 0 < 10 := by
      rcases rest with _ | ⟨r0, rs⟩
      · simp
      · exact hrest r0 (by simp)
    simp only [mulRow, List.mem_cons] at hx
    rcases hx with rfl | hx
    · exact Nat.mod_lt _ (by norm_num)
    · refine ih rest.tail _ hd (fun y hy => hms y (by simp [hy])) ?_ ?_ x hx
      · exact fun y hy => hrest y (List.mem_of_mem_tail hy)
      · have : d * m0 + rest.headD 0 + c ≤ 9 * 9 + 9 + 9 := by
          have h1 : d * m0 ≤ 9 * 9 := Nat.mul_le_mul (by omega) (by omega)
          omega
        omega

theorem mulLoop_spec : ∀ (ns ms front : List Nat),
    front.length = ms.length →
    (∀ x ∈ front, x < 10) → (∀ x ∈ ms, x < 10) → (∀ x ∈ ns, x < 10) →
    valD (mulLoop ns ms (front ++ List.replicate ns.length 0))
      = valD ns * valD ms + valD front ∧
    (∀ x ∈ mulLoop ns ms (front ++ List.replicate ns.length 0), x < 10) := by
  intro ns
  induction ns with
  | nil =>
    intro ms front _ hfront _ _
    simp only [mulLoop, List.length_nil, List.replicate, List.append_nil]
    exact ⟨by simp [valD], hfront⟩
  | cons n0 ns ih =>
    intro ms front hflen hfront hms hns
    have hn0 : n0 < 10 := hns n0 (by simp)
    set cur := front ++ List.replicate (n0 :: ns).length 0 with hcur
    have hcur2 : cur = front ++ (0 :: List.replicate ns.length 0) := by
      rw [hcur]
      simp [List.replicate]
    have hcurlen : ms.length < cur.length := by
      rw [hcur]
      simp [hflen]
    have hcurz : cur.getD ms.length 1 = 0 := by
      rw [hcur2, ← hflen]
      rw [List.getD_eq_getElem?_getD]
      rw [List.getElem?_append_right (by omega)]
      simp
    have hcurd : ∀ x ∈ cur, x < 10 := by
      intro x hx
      rw [hcur2] at hx
      rcases List.mem_append.mp hx with hx | hx
      · exact hfront x hx
      · simp at hx
        rcases hx with rfl | hx
        · omega
        · omega
    obtain ⟨out, hout, houtlen⟩ :=
      mulRow_structure n0 ms cur 0 hcurlen
    have hrowval : valD (mulRow n0 ms cur 0) = n0 * valD ms + 0 + valD cur :=
      mulRow_val n0 ms cur 0 hcurlen hcurz
    have hrowd : ∀ x ∈ mulRow n0 ms cur 0, x < 10 :=
      mulRow_digits n0 ms cur 0 hn0 hms hcurd (by norm_num)
    have hdrop : cur.drop (ms.length + 1) = List.replicate ns.length 0 := by
      rw [hcur2, ← hflen]
      rw [List.drop_append_eq_append_drop]
      simp
    rw [hdrop] at hout
    match hmout : out, houtlen with
    | o0 :: out', _ =>
      have houtlen' : out'.length = ms.length := by
        rw [hmout] at houtlen
        simpa using houtlen
      simp only [mulLoop]
      rw [hout]
      simp only [List.cons_append, List.headD_cons, List.tail_cons]
      have hout'd : ∀ x ∈ out', x < 10 := by
        intro x hx
        apply hrowd
        rw [hout]
        simp [hx]
      have ho0 : o0 < 10 := by
        apply hrowd
        rw [hout]
        simp
      obtain ⟨ihval, ihd⟩ := ih ms out' houtlen' hout'd hms
        (fun y hy => hns y (by simp [hy]))
      constructor
      · simp only [valD]
        rw [ihval]
        have hvcur : valD cur = valD front := by
          rw [hcur]
          rw [valD_append, valD_replicate_zero]
          ring
        have hvout : valD (mulRow n0 ms cur 0)
            = o0 + 10 * valD (out' ++ List.replicate ns.length 0) := by
          rw [hout]
          simp [valD]
        have hvout' : valD (out' ++ List.replicate ns.length 0) = valD out' := by
          rw [valD_append, valD_replicate_zero]
          ring
        have hkey : o0 + 10 * valD out' = n0 * valD ms + valD front := by
          have h1 := hrowval
          rw [hvout, hvout', hvcur] at h1
          omega
        nlinarith [hkey]
      · intro x hx
        simp only [List.mem_cons] at hx
        rcases hx with rfl | hx
        · exact ho0
        · exact ihd x hx

theorem is_zero_iff {n : HaInt} : is_zero n = true ↔ n.digits = [0] := by
  simp [is_zero]

theorem mulLoop_ne_nil {ns ms cur : List Nat} (h : ns ≠ []) :
    mulLoop ns ms cur ≠ [] := by
  rcases ns with _ | ⟨n0, ns⟩
  · exact absurd rfl h
  · simp [mulLoop]

theorem ha_int_mult_digits (n m : HaInt) (hne : n.digits ≠ [])
    (hn : ∀ x ∈ n.digits, x < 10) (hm : ∀ x ∈ m.digits, x < 10) :
    valD (ha_int_mult n m).digits = valD n.digits * valD m.digits ∧
    WFd (ha_int_mult n m).digits := by
  unfold ha_int_mult
  simp only []
  have hsplit : List.replicate (n.digits.length + m.digits.length) (0 : Nat)
      = List.replicate m.digits.length 0 ++ List.replicate n.digits.length 0 := by
    rw [← List.replicate_add]
    rw [Nat.add_comm]
  rw [hsplit]
  have hspec := mulLoop_spec n.digits m.digits
    (List.replicate m.digits.length 0) (by simp)
    (by
      intro x hx
      rw [List.mem_replicate] at hx
      omega)
    hm hn
  constructor
  · rw [valD_trim, hspec.1, valD_replicate_zero]
    omega
  · exact WFd_trim (mulLoop_ne_nil hne) hspec.2


theorem ha_int_mult_correct {n m : HaInt} (hn : WF n) (hm : WF m) :
    toInt (ha_int_mult n m) = toInt n * toInt m ∧ WF (ha_int_mult n m) := by
  obtain ⟨hval, hwfd⟩ := ha_int_mult_digits n m hn.1.1 hn.1.2.1 hm.1.2.1
  have hsgn : (ha_int_mult n m).sign = mult_div_sign n m := rfl
  by_cases hz : is_zero n = true ∨ is_zero m = true
  · have hms : mult_div_sign n m = true := by
      unfold mult_div_sign
      rcases hz with hz | hz <;> simp [hz]
    have hv0 : valD (ha_int_mult n m).digits = 0 := by
      rw [hval]
      rcases hz with hz | hz
      · rw [is_zero_iff] at hz
        rw [hz]
        simp [valD]
      · rw [is_zero_iff] at hz
        rw [hz]
        simp [valD]
    constructor
    · rw [toInt, hsgn, hms, if_pos rfl, hv0]
      rcases hz with hz | hz
      · rw [is_zero_iff] at hz
        have : toInt n = 0 := by
          unfold toInt
          rw [hz]
          simp [valD]
        rw [this]
        ring
      · rw [is_zero_iff] at hz
        have : toInt m = 0 := by
          unfold toInt
          rw [hz]
          simp [valD]
        rw [this]
        ring
    · refine ⟨hwfd, fun _ => ?_⟩
      rw [hsgn, hms]
  · push_neg at hz
    have hzn : n.digits ≠ [0] := fun hc => hz.1 (is_zero_iff.mpr hc)
    have hzm : m.digits ≠ [0] := fun hc => hz.2 (is_zero_iff.mpr hc)
    have hpn : 0 < valD n.digits := valD_pos_of_ne_zero hn.1 hzn
    have hpm : 0 < valD m.digits := valD_pos_of_ne_zero hm.1 hzm
    have hppos : 0 < valD (ha_int_mult n m).digits := by
      rw [hval]
      positivity
    have hms : mult_div_sign n m = (n.sign == m.sign) := by
      unfold mult_div_sign
      rw [if_neg]
      simp only [Bool.or_eq_true, not_or]
      exact ⟨by simp [hz.1], by simp [hz.2]⟩
    constructor
    · rw [toInt, hsgn, hms]
      unfold toInt
      cases hsn : n.sign
      · cases hsm : m.sign
        · rw [show ((false : Bool) == false) = true from rfl]
          simp only [if_true, Bool.false_eq_true, if_false]
          rw [hval]
          push_cast
          ring
        · rw [show ((false : Bool) == true) = false from rfl]
          simp only [if_true, Bool.false_eq_true, if_false]
          rw [hval]
          push_cast
          ring
      · cases hsm : m.sign
        · rw [show ((true : Bool) == false) = false from rfl]
          simp only [if_true, Bool.false_eq_true, if_false]
          rw [hval]
          push_cast
          ring
        · rw [show ((true : Bool) == true) = true from rfl]
          simp only [if_true]
          rw [hval]
          push_cast
          ring
    · refine ⟨hwfd, fun hc => ?_⟩
      exfalso
      rw [hc] at hppos
      simp [valD] at hppos

/-! Long division. -/

theorem ha_int_sub_pos_sign {n m : HaInt} (hn : n.sign = true)
    (hm : m.sign = true) (hgt : absGt m.digits n.digits = false) :
    (ha_int_sub n m).sign = true := by
  unfold ha_int_sub
  rw [if_neg (by rw [hn, hm]; simp)]
  simp only [hn]
  by_cases h1 : absGt n.digits m.digits
  · simp [h1]
  · simp only [Bool.not_eq_true] at h1
    simp [h1, hgt]

theorem divSubLoop_spec : ∀ (fuel : Nat) (dividend md : HaInt),
    dividend.sign = true → WFd dividend.digits →
    md.sign = true → WFd md.digits → 0 < valD md.digits →
    valD dividend.digits < fuel →
    ∃ d', divSubLoop fuel dividend md
        = (valD dividend.digits / valD md.digits, d') ∧
      d'.sign = true ∧ WFd d'.digits ∧
      valD d'.digits = valD dividend.digits % valD md.digits := by
  intro fuel
  induction fuel with
  | zero =>
    intro dividend md _ _ _ _ _ hfuel
    omega
  | succ fuel ih =>
    intro dividend md hds hdw hms hmw hmpos hfuel
    simp only [divSubLoop]
    by_cases hgt : absGt md.digits dividend.digits
    · rw [if_pos hgt]
      have hlt : valD dividend.digits < valD md.digits :=
        (absGt_iff hmw hdw).mp hgt
      exact ⟨dividend, by rw [Nat.div_eq_of_lt hlt],
        hds, hdw, (Nat.mod_eq_of_lt hlt).symm⟩
    · have hgtf : absGt md.digits dividend.digits = false := by
        simp only [Bool.not_eq_true] at hgt
        exact hgt
      rw [hgtf]
      simp only [Bool.false_eq_true, if_false]
      have hge : valD md.digits ≤ valD dividend.digits := by
        rcases Nat.lt_or_ge (valD dividend.digits) (valD md.digits) with hx | hx
        · exact absurd ((absGt_iff hmw hdw).mpr hx) (by simp [hgtf])
        · exact hx
      have hdwf : WF dividend := ⟨hdw, fun _ => hds⟩
      obtain ⟨hsubval, hsubwf⟩ := ha_int_sub_correct hdwf hmw
      have hsubsign : (ha_int_sub dividend md).sign = true :=
        ha_int_sub_pos_sign hds hms hgtf
      have hsubint : toInt (ha_int_sub dividend md)
          = (valD dividend.digits : Int) - valD md.digits := by
        rw [hsubval]
        unfold toInt
        rw [hds, hms]
        simp
      have hsubv : valD (ha_int_sub dividend md).digits
          = valD dividend.digits - valD md.digits := by
        have : toInt (ha_int_sub dividend md)
            = valD (ha_int_sub dividend md).digits := by
          unfold toInt
          rw [hsubsign]
          simp
        rw [this] at hsubint
        omega
      have hrec := ih (ha_int_sub dividend md) md hsubsign hsubwf.1
        hms hmw hmpos (by omega)
      obtain ⟨d', hd'eq, hd's, hd'w, hd'v⟩ := hrec
      refine ⟨d', ?_, hd's, hd'w, ?_⟩
      · rw [hd'eq, hsubv]
        have hcancel : valD dividend.digits - valD md.digits + valD md.digits
            = valD dividend.digits := by omega
        have : (valD dividend.digits - valD md.digits) / valD md.digits + 1
            = valD dividend.digits / valD md.digits := by
          rw [← Nat.add_div_right _ hmpos, hcancel]
        rw [this]
      · rw [hd'v, hsubv]
        rw [← Nat.add_mod_right _ (valD md.digits)]
        rw [Nat.sub_add_cancel hge]

theorem tenPowInt_wfd (k : Nat) : WFd (tenPowInt k).digits := by
  refine ⟨by simp [tenPowInt], ?_, ?_⟩
  · intro x hx
    simp only [tenPowInt, List.mem_append, List.mem_replicate,
      List.mem_singleton] at hx
    rcases hx with ⟨_, rfl⟩ | rfl <;> omega
  · intro hc
    simp only [tenPowInt, List.getLast?_concat] at hc
    exact absurd (Option.some.inj hc) (by omega)

theorem tenPowInt_val (k : Nat) : valD (tenPowInt k).digits = 10 ^ k := by
  simp only [tenPowInt]
  rw [valD_append, valD_replicate_zero]
  simp [valD]

theorem md_digits (m : HaInt) (hne : m.digits ≠ [])
    (hd : ∀ x ∈ m.digits, x < 10) (ld : Nat) :
    valD (ha_int_mult m (tenPowInt ld)).digits = valD m.digits * 10 ^ ld ∧
    WFd (ha_int_mult m (tenPowInt ld)).digits := by
  obtain ⟨hv, hw⟩ := ha_int_mult_digits m (tenPowInt ld) hne hd
    (tenPowInt_wfd ld).2.1
  rw [tenPowInt_val] at hv
  exact ⟨hv, hw⟩

theorem divOuter_spec {m : HaInt} (hmne : m.digits ≠ [])
    (hmd : ∀ x ∈ m.digits, x < 10) (hmpos : 0 < valD m.digits) :
    ∀ (ld : Nat) (dividend : HaInt), dividend.sign = true →
    WFd dividend.digits →
    ∃ qs fin, divOuter m ld dividend = (qs, fin) ∧
      qs.length = ld + 1 ∧
      valD qs.reverse * valD m.digits + valD fin.digits
        = valD dividend.digits ∧
      valD fin.digits < valD m.digits ∧
      (valD dividend.digits < valD m.digits * 10 ^ (ld + 1) →
        ∀ x ∈ qs, x < 10) := by
  intro ld
  induction ld with
  | zero =>
    intro dividend hds hdw
    obtain ⟨hmv, hmw⟩ := md_digits m hmne hmd 0
    have hmv' : valD (ha_int_mult m (tenPowInt 0)).digits = valD m.digits := by
      rw [hmv]
      simp
    obtain ⟨d', hd'eq, hd's, hd'w, hd'v⟩ :=
      divSubLoop_spec (valD dividend.digits + 1) dividend
        ⟨true, (ha_int_mult m (tenPowInt 0)).digits⟩ hds hdw rfl hmw
        (by simpa [hmv'] using hmpos) (by omega)
    refine ⟨[valD dividend.digits /
        valD (⟨true, (ha_int_mult m (tenPowInt 0)).digits⟩ : HaInt).digits],
      d', ?_, rfl, ?_, ?_, ?_⟩
    · simp only [divOuter]
      rw [hd'eq]
    · simp only [List.reverse_singleton]
      have : valD [valD dividend.digits /
          valD ((⟨true, (ha_int_mult m (tenPowInt 0)).digits⟩ : HaInt).digits)]
          = valD dividend.digits / valD m.digits := by
        simp only [valD]
        rw [show valD ((⟨true, (ha_int_mult m (tenPowInt 0)).digits⟩ :
          HaInt).digits) = valD m.digits from hmv']
        omega
      rw [this, hd'v]
      rw [show valD ((⟨true, (ha_int_mult m (tenPowInt 0)).digits⟩ :
        HaInt).digits) = valD m.digits from hmv']
      rw [Nat.mul_comm]
      exact Nat.div_add_mod _ _
    · rw [hd'v]
      rw [show valD ((⟨true, (ha_int_mult m (tenPowInt 0)).digits⟩ :
        HaInt).digits) = valD m.digits from hmv']
      exact Nat.mod_lt _ hmpos
    · intro hbound x hx
      simp only [List.mem_singleton] at hx
      subst hx
      rw [show valD ((⟨true, (ha_int_mult m (tenPowInt 0)).digits⟩ :
        HaInt).digits) = valD m.digits from hmv']
      rw [Nat.div_lt_iff_lt_mul hmpos]
      rw [pow_one] at hbound
      omega
  | succ ld ih =>
    intro dividend hds hdw
    obtain ⟨hmv, hmw⟩ := md_digits m hmne hmd (ld + 1)
    have hmdpos : 0 < valD (ha_int_mult m (tenPowInt (ld + 1))).digits := by
      rw [hmv]
      positivity
    obtain ⟨d', hd'eq, hd's, hd'w, hd'v⟩ :=
      divSubLoop_spec (valD dividend.digits + 1) dividend
        ⟨true, (ha_int_mult m (tenPowInt (ld + 1))).digits⟩ hds hdw rfl hmw
        hmdpos (by omega)
    obtain ⟨qs, fin, hrec, hlen, hval, hrem, hdig⟩ := ih d' hd's hd'w
    refine ⟨valD dividend.digits /
        valD ((⟨true, (ha_int_mult m (tenPowInt (ld + 1))).digits⟩ :
          HaInt).digits) :: qs, fin, ?_, by simp [hlen], ?_, hrem, ?_⟩
    · simp only [divOuter]
      rw [hd'eq]
      simp only []
      rw [hrec]
    · simp only [List.reverse_cons]
      rw [valD_concat]
      have hlenq : qs.reverse.length = ld + 1 := by simp [hlen]
      rw [hlenq]
      have hmds : valD ((⟨true, (ha_int_mult m (tenPowInt (ld + 1))).digits⟩ :
          HaInt).digits) = valD m.digits * 10 ^ (ld + 1) := hmv
      rw [hmds]
      have hdm := Nat.div_add_mod (valD dividend.digits)
        (valD m.digits * 10 ^ (ld + 1))
      rw [hd'v, hmds] at hval
      -- hval : valD qs.reverse * M + valD fin = D % (M * 10^(ld+1))
      nlinarith [hdm, hval]
    · intro hbound x hx
      simp only [List.mem_cons] at hx
      have hmds : valD ((⟨true, (ha_int_mult m (tenPowInt (ld + 1))).digits⟩ :
          HaInt).digits) = valD m.digits * 10 ^ (ld + 1) := hmv
      rcases hx with rfl | hx
      · rw [hmds]
        have hp : 0 < valD m.digits * 10 ^ (ld + 1) := by positivity
        rw [Nat.div_lt_iff_lt_mul hp]
        have h10 : valD m.digits * 10 ^ (ld + 1) * 10
            = valD m.digits * 10 ^ (ld + 1 + 1) := by ring
        have h10' : (10 : Nat) * (valD m.digits * 10 ^ (ld + 1))
            = valD m.digits * 10 ^ (ld + 1 + 1) := by ring
        omega
      · apply hdig _ x hx
        rw [hd'v, hmds]
        exact Nat.mod_lt _ (by positivity)

theorem valD_append_zeros (l : List Nat) (k : Nat) :
    valD (l ++ List.replicate k 0) = valD l := by
  rw [valD_append, valD_replicate_zero]
  ring

theorem ha_int_quotient_correct {n m : HaInt} (hn : WF n) (hm : WF m)
    (hz : is_zero m = false) :
    ∃ q, ha_int_quotient n m = some q ∧ WF q ∧
      valD q.digits = valD n.digits / valD m.digits ∧
      toInt q = (if n.sign = m.sign
        then ((valD n.digits / valD m.digits : Nat) : Int)
        else -((valD n.digits / valD m.digits : Nat) : Int)) := by
  have hmz : m.digits ≠ [0] := by
    intro hc
    rw [is_zero_iff.mpr hc] at hz
    cases hz
  have hmpos : 0 < valD m.digits := valD_pos_of_ne_zero hm.1 hmz
  by_cases habs : absGt m.digits n.digits = true
  · have hlt : valD n.digits < valD m.digits := (absGt_iff hm.1 hn.1).mp habs
    refine ⟨⟨true, [0]⟩, ?_, ?_, ?_, ?_⟩
    · unfold ha_int_quotient
      rw [if_neg (by simp [hz]), if_pos habs]
    · exact ⟨⟨by simp, by simp, fun _ => rfl⟩, fun _ => rfl⟩
    · simp [valD, Nat.div_eq_of_lt hlt]
    · rw [Nat.div_eq_of_lt hlt]
      unfold toInt
      split_ifs <;> simp [valD]
  · have habsf : absGt m.digits n.digits = false := by
      simp only [Bool.not_eq_true] at habs
      exact habs
    have hge : valD m.digits ≤ valD n.digits := by
      rcases Nat.lt_or_ge (valD n.digits) (valD m.digits) with hx | hx
      · exact absurd ((absGt_iff hm.1 hn.1).mpr hx) (by simp [habsf])
      · exact hx
    have hnz : n.digits ≠ [0] := by
      intro hc
      have : valD n.digits = 0 := by rw [hc]; rfl
      omega
    have hnpos : 0 < valD n.digits := valD_pos_of_ne_zero hn.1 hnz
    have hmlen : m.digits.length ≤ n.digits.length := by
      by_contra hc
      push_neg at hc
      have h1 : valD n.digits < 10 ^ n.digits.length := valD_lt_pow hn.1.2.1
      have h2 : 10 ^ (m.digits.length - 1) ≤ valD m.digits :=
        valD_ge_pow hm.1 hmz
      have h3 : (10 : Nat) ^ n.digits.length ≤ 10 ^ (m.digits.length - 1) :=
        Nat.pow_le_pow_right (by norm_num) (by omega)
      omega
    obtain ⟨qs, fin, hrec, hlen, hval, hrem, hdig⟩ :=
      divOuter_spec hm.1.1 hm.1.2.1 hmpos
        (n.digits.length - m.digits.length) ⟨true, n.digits⟩ rfl hn.1
    simp only [] at hval hdig
    have hm1 : 1 ≤ m.digits.length := List.length_pos.mpr hm.1.1
    have hbound : valD n.digits < valD m.digits *
        10 ^ (n.digits.length - m.digits.length + 1) := by
      have h1 : valD n.digits < 10 ^ n.digits.length := valD_lt_pow hn.1.2.1
      have h2 : 10 ^ (m.digits.length - 1) ≤ valD m.digits :=
        valD_ge_pow hm.1 hmz
      have h3 : (10 : Nat) ^ n.digits.length ≤ 10 ^ (m.digits.length - 1) *
          10 ^ (n.digits.length - m.digits.length + 1) := by
        rw [← pow_add]
        apply Nat.pow_le_pow_right (by norm_num)
        omega
      have h4 : 10 ^ (m.digits.length - 1) *
            10 ^ (n.digits.length - m.digits.length + 1)
          ≤ valD m.digits * 10 ^ (n.digits.length - m.digits.length + 1) :=
        Nat.mul_le_mul_right _ h2
      omega
    have hdigits : ∀ x ∈ qs, x < 10 := hdig hbound
    have hvq : valD qs.reverse = valD n.digits / valD m.digits := by
      have hD : valD n.digits
          = valD m.digits * valD qs.reverse + valD fin.digits := by
        rw [← hval]
        ring
      rw [hD, Nat.mul_add_div hmpos, Nat.div_eq_of_lt hrem]
      omega
    have hq1 : 1 ≤ valD n.digits / valD m.digits :=
      (Nat.one_le_div_iff hmpos).mpr hge
    have hqsne : qs ≠ [] := by
      intro hc
      rw [hc] at hlen
      simp at hlen
    have happne : qs.reverse ++ List.replicate
        (n.digits.length - (n.digits.length - m.digits.length + 1)) 0 ≠ [] := by
      intro hc
      rcases List.append_eq_nil.mp hc with ⟨h1, _⟩
      exact hqsne (by simpa using congrArg List.reverse h1)
    have happd : ∀ x ∈ qs.reverse ++ List.replicate
        (n.digits.length - (n.digits.length - m.digits.length + 1)) 0,
        x < 10 := by
      intro x hx
      rcases List.mem_append.mp hx with hx | hx
      · exact hdigits x (by simpa using hx)
      · rw [List.mem_replicate] at hx
        omega
    have hvdig : valD (trim (qs.reverse ++ List.replicate
        (n.digits.length - (n.digits.length - m.digits.length + 1)) 0))
        = valD n.digits / valD m.digits := by
      rw [valD_trim, valD_append_zeros, hvq]
    have hwfd := WFd_trim happne happd
    have hsgn : mult_div_sign n m = (n.sign == m.sign) := by
      unfold mult_div_sign
      rw [if_neg]
      simp only [Bool.or_eq_true, not_or]
      constructor
      · intro hc
        exact hnz (is_zero_iff.mp hc)
      · intro hc
        exact hmz (is_zero_iff.mp hc)
    have hqeq : ha_int_quotient n m = some ⟨mult_div_sign n m,
        trim (qs.reverse ++ List.replicate
          (n.digits.length - (n.digits.length - m.digits.length + 1)) 0)⟩ := by
      unfold ha_int_quotient
      rw [if_neg (by simp [hz]), if_neg (by simp [habsf])]
      simp only [hrec]
    refine ⟨_, hqeq, ⟨hwfd, ?_⟩, hvdig, ?_⟩
    · intro hc
      exfalso
      simp only [] at hc
      rw [hc] at hvdig
      simp [valD] at hvdig
      omega
    · unfold toInt
      simp only []
      rw [hsgn]
      by_cases hss : n.sign = m.sign
      · rw [if_pos hss]
        rw [show (n.sign == m.sign) = true from by simp [hss]]
        rw [if_pos rfl, hvdig]
      · rw [if_neg hss]
        rw [show (n.sign == m.sign) = false from by simp [hss]]
        rw [if_neg (by simp), hvdig]

theorem ha_int_remainder_correct {n m : HaInt} (hn : WF n) (hm : WF m)
    (hz : is_zero m = false) :
    ∃ q r, ha_int_quotient n m = some q ∧ ha_int_remainder n m = some r ∧
      WF r ∧ r = ha_int_sub n (ha_int_mult m q) ∧
      toInt r = toInt n - toInt m * toInt q := by
  obtain ⟨q, hq, hqwf, hqv, hqi⟩ := ha_int_quotient_correct hn hm hz
  have hmul := ha_int_mult_correct hm hqwf
  have hsub := ha_int_sub_correct hn hmul.2.1
  refine ⟨q, ha_int_sub n (ha_int_mult m q), hq, ?_, hsub.2, rfl, ?_⟩
  · unfold ha_int_remainder
    rw [if_neg (by simp [hz]), hq]
    rfl
  · rw [hsub.1, hmul.1]

/-- The value of the remainder: `|n| mod |m|`, signed like the dividend. -/
theorem ha_int_remainder_val {n m : HaInt} (hn : WF n) (hm : WF m)
    (hz : is_zero m = false) :
    ∃ q r, ha_int_quotient n m = some q ∧ ha_int_remainder n m = some r ∧
      WF r ∧
      toInt r = (if n.sign
        then ((valD n.digits % valD m.digits : Nat) : Int)
        else -((valD n.digits % valD m.digits : Nat) : Int)) := by
  obtain ⟨q, r, hq, hr, hrwf, _, hri⟩ := ha_int_remainder_correct hn hm hz
  obtain ⟨q2, hq2, hq2wf, hq2v, hq2i⟩ := ha_int_quotient_correct hn hm hz
  have hqq : q2 = q := by
    rw [hq] at hq2
    exact (Option.some.inj hq2).symm
  have hqi : toInt q = (if n.sign = m.sign
      then ((valD n.digits / valD m.digits : Nat) : Int)
      else -((valD n.digits / valD m.digits : Nat) : Int)) := hqq ▸ hq2i
  refine ⟨q, r, hq, hr, hrwf, ?_⟩
  have hdm := Nat.div_add_mod (valD n.digits) (valD m.digits)
  have hdmz : (valD m.digits : Int) *
      ((valD n.digits / valD m.digits : Nat) : Int) +
      ((valD n.digits % valD m.digits : Nat) : Int)
      = (valD n.digits : Int) := by
    exact_mod_cast hdm
  rw [hri, hqi]
  unfold toInt
  cases hsn : n.sign <;> cases hsm : m.sign <;>
    simp only [Bool.false_eq_true, Bool.true_eq_false, eq_self_iff_true,
      if_true, if_false] <;>
    linarith [hdmz]

/-! The fraction layer: sign helpers, the Euclidean gcd, reduction. -/

theorem WF_zeroInt : WF zeroInt := by decide

theorem WF_oneInt : WF oneInt := by decide

theorem toInt_zeroInt : toInt zeroInt = 0 := rfl

theorem toInt_of_sign_true {x : HaInt} (h : x.sign = true) :
    toInt x = valD x.digits := by
  unfold toInt
  rw [h]
  simp

theorem sign_true_of_pos {x : HaInt} (hw : WF x) (hp : 0 < toInt x) :
    x.sign = true := by
  cases hx : x.sign
  · exact absurd (toInt_neg_of_sign hw hx) (by omega)
  · rfl

theorem ha_int_cmp_spec {n m : HaInt} (hn : WF n) (hm : WF m) :
    ha_int_cmp n m = if toInt m < toInt n then 1
      else if toInt n = toInt m then 0 else -1 := by
  unfold ha_int_cmp
  by_cases hgt : toInt m < toInt n
  · rw [if_pos ((ha_int_gt_iff hn hm).mpr hgt), if_pos hgt]
  · rw [if_neg (fun hc => hgt ((ha_int_gt_iff hn hm).mp hc))]
    rw [if_neg hgt]
    by_cases heq : toInt n = toInt m
    · rw [if_pos (ha_int_eq_true_iff.mpr (toInt_inj hn hm heq)), if_pos heq]
    · rw [if_neg (fun hc => heq (by rw [ha_int_eq_true_iff.mp hc])),
        if_neg heq]

theorem ha_int_sign_spec {n : HaInt} (hn : WF n) :
    ha_int_sign n = if 0 < toInt n then 1
      else if toInt n = 0 then 0 else -1 := by
  unfold ha_int_sign
  rw [ha_int_cmp_spec hn WF_zeroInt, toInt_zeroInt]

theorem ha_int_sign_zero_iff {n : HaInt} (hn : WF n) :
    ha_int_sign n = 0 ↔ toInt n = 0 := by
  rw [ha_int_sign_spec hn]
  split_ifs with h1 h2
  · constructor
    · intro hc
      cases hc
    · intro hc
      omega
  · simp [h2]
  · constructor
    · intro hc
      cases hc
    · intro hc
      exact absurd hc h2

theorem toInt_zero_iff {n : HaInt} (hn : WF n) :
    toInt n = 0 ↔ n.digits = [0] := by
  constructor
  · intro h
    have hv : valD n.digits = 0 := by
      unfold toInt at h
      cases hs : n.sign <;> rw [hs] at h <;> simp at h <;> omega
    exact (valD_eq_zero_iff hn.1).mp hv
  · intro h
    unfold toInt
    rw [hn.2 h, h]
    simp [valD]

theorem posi_copy_correct {n : HaInt} (hn : WF n) :
    WF (posi_copy n) ∧ (posi_copy n).sign = true ∧
    valD (posi_copy n).digits = valD n.digits := by
  unfold posi_copy
  by_cases hneg : ha_int_sign n < 0
  · rw [if_pos hneg]
    have hsgn := ha_int_sign_spec hn
    have hni : toInt n < 0 := by
      rw [hsgn] at hneg
      split_ifs at hneg with h1 h2
      · omega
      · omega
      · omega
    obtain ⟨hsv, hsw⟩ := ha_int_sub_correct WF_zeroInt hn.1
    rw [toInt_zeroInt] at hsv
    have hpos : 0 < toInt (ha_int_sub zeroInt n) := by omega
    have hsgn' : (ha_int_sub zeroInt n).sign = true :=
      sign_true_of_pos hsw hpos
    refine ⟨hsw, hsgn', ?_⟩
    have h1 : toInt (ha_int_sub zeroInt n)
        = valD (ha_int_sub zeroInt n).digits := toInt_of_sign_true hsgn'
    have h2 : toInt n = -(valD n.digits : Int) := by
      unfold toInt
      have : n.sign = false := by
        cases hns : n.sign
        · rfl
        · rw [toInt_of_sign_true hns] at hni
          omega
      rw [this]
      simp
    omega
  · rw [if_neg hneg]
    have hsgn := ha_int_sign_spec hn
    have hni : 0 ≤ toInt n := by
      rw [hsgn] at hneg
      split_ifs at hneg with h1 h2
      · omega
      · omega
      · omega
    refine ⟨hn, ?_, rfl⟩
    cases hns : n.sign
    · exact absurd (toInt_neg_of_sign hn hns) (by omega)
    · rfl

theorem get_gcd_spec : ∀ (fuel : Nat) (small big : HaInt),
    WF small → WF big → small.sign = true → big.sign = true →
    0 < valD small.digits → 0 < valD big.digits →
    valD small.digits < fuel →
    ∃ g, get_gcd fuel small big = some g ∧ WF g ∧ g.sign = true ∧
      0 < valD g.digits ∧
      valD g.digits = Nat.gcd (valD small.digits) (valD big.digits) := by
  intro fuel
  induction fuel with
  | zero =>
    intro small big _ _ _ _ _ _ hfuel
    omega
  | succ fuel ih =>
    intro small big hsw hbw hss hbs hsp hbp hfuel
    have hsz : is_zero small = false := by
      cases h : is_zero small
      · rfl
      · exfalso
        have := is_zero_iff.mp h
        rw [this] at hsp
        simp [valD] at hsp
    obtain ⟨q, r, hq, hr, hrwf, hri⟩ := ha_int_remainder_val hbw hsw hsz
    rw [hbs, if_pos rfl] at hri
    simp only [get_gcd]
    rw [hr]
    simp only []
    have hrval : toInt r = ((valD big.digits % valD small.digits : Nat) : Int) :=
      hri
    by_cases hr0 : valD big.digits % valD small.digits = 0
    · have hrz : toInt r = 0 := by
        rw [hrval, hr0]
        rfl
      rw [if_pos ((ha_int_sign_zero_iff hrwf).mpr hrz)]
      refine ⟨small, rfl, hsw, hss, hsp, ?_⟩
      exact (Nat.gcd_eq_left (Nat.dvd_of_mod_eq_zero hr0)).symm
    · have hrpos : 0 < toInt r := by
        rw [hrval]
        omega
      rw [if_neg (fun hc => hr0 (by
        have := (ha_int_sign_zero_iff hrwf).mp hc
        rw [hrval] at this
        exact_mod_cast this))]
      have hrsgn : r.sign = true := sign_true_of_pos hrwf hrpos
      have hrv : valD r.digits = valD big.digits % valD small.digits := by
        have := toInt_of_sign_true hrsgn
        rw [hrval] at this
        exact_mod_cast this.symm
      have hmodlt : valD big.digits % valD small.digits < valD small.digits :=
        Nat.mod_lt _ hsp
      obtain ⟨g, hg, hgw, hgs, hgp, hgv⟩ := ih r small hrwf hsw hrsgn hss
        (by omega) hsp (by omega)
      refine ⟨g, hg, hgw, hgs, hgp, ?_⟩
      rw [hgv, hrv]
      exact (Nat.gcd_rec _ _).symm

theorem sign_pos_char {x : HaInt} (hw : WF x) (hx : toInt x ≠ 0)
    (hs : x.sign = true) :
    ha_int_sign x = 1 ∧ toInt x = (valD x.digits : Int) ∧
    0 < valD x.digits := by
  have hv : toInt x = (valD x.digits : Int) := toInt_of_sign_true hs
  have hp : 0 < valD x.digits := by
    rcases Nat.eq_zero_or_pos (valD x.digits) with h0 | h0
    · exact absurd (by rw [hv, h0]; rfl) hx
    · exact h0
  refine ⟨?_, hv, hp⟩
  rw [ha_int_sign_spec hw, if_pos (by rw [hv]; exact_mod_cast hp)]

theorem sign_neg_char {x : HaInt} (hw : WF x) (hx : toInt x ≠ 0)
    (hs : x.sign = false) :
    ha_int_sign x = -1 ∧ toInt x = -(valD x.digits : Int) ∧
    0 < valD x.digits := by
  have hv : toInt x = -(valD x.digits : Int) := by
    unfold toInt
    rw [hs]
    simp
  have hneg : toInt x < 0 := toInt_neg_of_sign hw hs
  have hp : 0 < valD x.digits := by
    rcases Nat.eq_zero_or_pos (valD x.digits) with h0 | h0
    · exact absurd (by rw [hv, h0]; rfl) hx
    · exact h0
  refine ⟨?_, hv, hp⟩
  rw [ha_int_sign_spec hw, if_neg (by omega), if_neg (by omega)]

/-- The ratio of the magnitudes, signed by `reduc_nega`, is the signed
ratio of the operands. -/
theorem reduc_nega_ratio {nume denom : HaInt} (hn : WF nume) (hd : WF denom)
    (hnz : toInt nume ≠ 0) (hdz : toInt denom ≠ 0) :
    (if reduc_nega nume denom
      then -((valD nume.digits : ℚ) / (valD denom.digits : ℚ))
      else (valD nume.digits : ℚ) / (valD denom.digits : ℚ))
    = (toInt nume : ℚ) / (toInt denom : ℚ) := by
  cases hsn : nume.sign
  · obtain ⟨hs1, hv1, hp1⟩ := sign_neg_char hn hnz hsn
    cases hsd : denom.sign
    · obtain ⟨hs2, hv2, hp2⟩ := sign_neg_char hd hdz hsd
      have hflag : reduc_nega nume denom = false := by
        unfold reduc_nega
        rw [hs1, hs2]
        norm_num
      rw [hflag]
      simp only [Bool.false_eq_true, if_false]
      rw [hv1, hv2]
      push_cast
      rw [neg_div_neg_eq]
    · obtain ⟨hs2, hv2, hp2⟩ := sign_pos_char hd hdz hsd
      have hflag : reduc_nega nume denom = true := by
        unfold reduc_nega
        rw [hs1, hs2]
        norm_num
      rw [hflag]
      simp only [if_true]
      rw [hv1, hv2]
      push_cast
      rw [neg_div]
  · obtain ⟨hs1, hv1, hp1⟩ := sign_pos_char hn hnz hsn
    cases hsd : denom.sign
    · obtain ⟨hs2, hv2, hp2⟩ := sign_neg_char hd hdz hsd
      have hflag : reduc_nega nume denom = true := by
        unfold reduc_nega
        rw [hs1, hs2]
        norm_num
      rw [hflag]
      simp only [if_true]
      rw [hv1, hv2]
      push_cast
      rw [div_neg]
    · obtain ⟨hs2, hv2, hp2⟩ := sign_pos_char hd hdz hsd
      have hflag : reduc_nega nume denom = false := by
        unfold reduc_nega
        rw [hs1, hs2]
        norm_num
      rw [hflag]
      simp only [Bool.false_eq_true, if_false]
      rw [hv1, hv2]
      push_cast
      rfl

theorem ha_frac_reduc_correct {nume denom : HaInt} (hnw : WF nume)
    (hdw : WF denom) (hdz : toInt denom ≠ 0) :
    ∃ f, ha_frac_reduc nume denom = some f ∧ Canonical f ∧
      fracVal f = (toInt nume : ℚ) / (toInt denom : ℚ) := by
  have hd0 : ¬ ha_int_sign denom = 0 :=
    fun hc => hdz ((ha_int_sign_zero_iff hdw).mp hc)
  by_cases hn0 : ha_int_sign nume = 0
  · have hnz : toInt nume = 0 := (ha_int_sign_zero_iff hnw).mp hn0
    refine ⟨⟨false, zeroInt, oneInt⟩, ?_, by decide, ?_⟩
    · unfold ha_frac_reduc
      rw [if_neg hd0, if_pos hn0]
    · unfold fracVal
      rw [hnz]
      norm_num [zeroInt, oneInt, valD]
  · have hnz : toInt nume ≠ 0 :=
      fun hc => hn0 ((ha_int_sign_zero_iff hnw).mpr hc)
    obtain ⟨hpnw, hpns, hpnv⟩ := posi_copy_correct hnw
    obtain ⟨hpdw, hpds, hpdv⟩ := posi_copy_correct hdw
    have hpa : 0 < valD nume.digits := by
      rcases Nat.eq_zero_or_pos (valD nume.digits) with h0 | h0
      · exfalso
        apply hnz
        unfold toInt
        rw [h0]
        cases nume.sign <;> simp
      · exact h0
    have hpb : 0 < valD denom.digits := by
      rcases Nat.eq_zero_or_pos (valD denom.digits) with h0 | h0
      · exfalso
        apply hdz
        unfold toInt
        rw [h0]
        cases denom.sign <;> simp
      · exact h0
    have hpn_int : toInt (posi_copy nume) = (valD nume.digits : Int) := by
      rw [toInt_of_sign_true hpns, hpnv]
    have hpd_int : toInt (posi_copy denom) = (valD denom.digits : Int) := by
      rw [toInt_of_sign_true hpds, hpdv]
    have hcmp := ha_int_cmp_spec hpnw hpdw
    rw [hpn_int, hpd_int] at hcmp
    have hratio := reduc_nega_ratio hnw hdw hnz hdz
    by_cases hab : valD nume.digits = valD denom.digits
    · have hcmp0 : ha_int_cmp (posi_copy nume) (posi_copy denom) = 0 := by
        rw [hcmp, if_neg (by omega), if_pos (by exact_mod_cast hab)]
      refine ⟨⟨reduc_nega nume denom, oneInt, oneInt⟩, ?_, ?_, ?_⟩
      · unfold ha_frac_reduc
        rw [if_neg hd0, if_neg hn0, if_pos hcmp0]
      · refine ⟨WF_oneInt, WF_oneInt, rfl, rfl, by norm_num [oneInt, valD],
          by norm_num [oneInt, valD], ?_⟩
        intro hc
        norm_num [oneInt, valD] at hc
      · unfold fracVal
        simp only [oneInt, valD]
        rw [← hratio, hab]
        have hb0 : (valD denom.digits : ℚ) ≠ 0 := by
          exact_mod_cast hpb.ne'
        norm_num
        rw [div_self hb0]
    · -- distinct magnitudes: gcd reduction
      set a := valD nume.digits with ha
      set b := valD denom.digits with hb
      have hgcd : ∃ g, (if ha_int_cmp (posi_copy nume) (posi_copy denom) = 1
          then get_gcd (valD (posi_copy denom).digits + 1)
            (posi_copy denom) (posi_copy nume)
          else get_gcd (valD (posi_copy nume).digits + 1)
            (posi_copy nume) (posi_copy denom)) = some g ∧
          WF g ∧ g.sign = true ∧ 0 < valD g.digits ∧
          valD g.digits = Nat.gcd a b := by
        by_cases hcase : b < a
        · have hcmp1 : ha_int_cmp (posi_copy nume) (posi_copy denom) = 1 := by
            rw [hcmp, if_pos (by exact_mod_cast hcase)]
          rw [if_pos hcmp1]
          obtain ⟨g, hg, hgw, hgs, hgp, hgv⟩ := get_gcd_spec
            (valD (posi_copy denom).digits + 1) (posi_copy denom)
            (posi_copy nume) hpdw hpnw hpds hpns
            (by rw [hpdv]; exact hpb) (by rw [hpnv]; exact hpa) (by omega)
          refine ⟨g, hg, hgw, hgs, hgp, ?_⟩
          rw [hgv, hpdv, hpnv]
          exact Nat.gcd_comm _ _
        · have hcmpne : ha_int_cmp (posi_copy nume) (posi_copy denom) ≠ 1 := by
            rw [hcmp, if_neg (by exact_mod_cast hcase)]
            split_ifs
            · omega
            · omega
          rw [if_neg hcmpne]
          obtain ⟨g, hg, hgw, hgs, hgp, hgv⟩ := get_gcd_spec
            (valD (posi_copy nume).digits + 1) (posi_copy nume)
            (posi_copy denom) hpnw hpdw hpns hpds
            (by rw [hpnv]; exact hpa) (by rw [hpdv]; exact hpb) (by omega)
          refine ⟨g, hg, hgw, hgs, hgp, ?_⟩
          rw [hgv, hpnv, hpdv]
      obtain ⟨g, hg, hgw, hgs, hgp, hgv⟩ := hgcd
      have hgz : is_zero g = false := by
        cases hzz : is_zero g
        · rfl
        · exfalso
          have := is_zero_iff.mp hzz
          rw [this] at hgp
          simp [valD] at hgp
      have hgdvd_a : valD g.digits ∣ a := hgv ▸ Nat.gcd_dvd_left _ _
      have hgdvd_b : valD g.digits ∣ b := hgv ▸ Nat.gcd_dvd_right _ _
      obtain ⟨qa, hqa, hqaw, hqav, hqai⟩ := ha_int_quotient_correct hpnw hgw hgz
      obtain ⟨qb, hqb, hqbw, hqbv, hqbi⟩ := ha_int_quotient_correct hpdw hgw hgz
      rw [hpnv] at hqav hqai
      rw [hpdv] at hqbv hqbi
      have hqa_pos : 0 < valD qa.digits := by
        rw [hqav]
        exact Nat.div_pos (Nat.le_of_dvd hpa hgdvd_a) hgp
      have hqb_pos : 0 < valD qb.digits := by
        rw [hqbv]
        exact Nat.div_pos (Nat.le_of_dvd hpb hgdvd_b) hgp
      have hqa_sgn : qa.sign = true := by
        apply sign_true_of_pos hqaw
        rw [hqai, if_pos (by rw [hpns, hgs])]
        rw [← hqav]
        exact_mod_cast hqa_pos
      have hqb_sgn : qb.sign = true := by
        apply sign_true_of_pos hqbw
        rw [hqbi, if_pos (by rw [hpds, hgs])]
        rw [← hqbv]
        exact_mod_cast hqb_pos
      have hcmpne0 : ¬ ha_int_cmp (posi_copy nume) (posi_copy denom) = 0 := by
        rw [hcmp]
        split_ifs with h1 h2
        · exact one_ne_zero
        · exact absurd (by exact_mod_cast h2) hab
        · intro hc
          cases hc
      refine ⟨⟨reduc_nega nume denom, qa, qb⟩, ?_, ?_, ?_⟩
      · unfold ha_frac_reduc
        rw [if_neg hd0, if_neg hn0, if_neg hcmpne0]
        rw [hg]
        simp only []
        rw [hqa, hqb]
      · refine ⟨hqaw, hqbw, hqa_sgn, hqb_sgn, hqb_pos, ?_, ?_⟩
        · simp only []
          rw [hqav, hqbv, hgv]
          have := Nat.coprime_div_gcd_div_gcd (m := a) (n := b)
            (by rw [← hgv]; exact hgp)
          exact this
        · intro hc
          simp only [] at hc
          omega
      · unfold fracVal
        simp only []
        rw [hqav, hqbv]
        rw [← hratio]
        have hG0 : (valD g.digits : ℚ) ≠ 0 := by
          exact_mod_cast hgp.ne'
        have hBq : (b : ℚ) ≠ 0 := by
          exact_mod_cast hpb.ne'
        have hca : ((a / valD g.digits : Nat) : ℚ)
            = (a : ℚ) / (valD g.digits : ℚ) := Nat.cast_div hgdvd_a hG0
        have hcb : ((b / valD g.digits : Nat) : ℚ)
            = (b : ℚ) / (valD g.digits : ℚ) := Nat.cast_div hgdvd_b hG0
        rw [hca, hcb]
        have hdivdiv : (a : ℚ) / (valD g.digits : ℚ) /
            ((b : ℚ) / (valD g.digits : ℚ)) = (a : ℚ) / (b : ℚ) := by
          field_simp
        cases hng : reduc_nega nume denom
        · simp only [Bool.false_eq_true, if_false]
          exact hdivdiv
        · simp only [if_true]
          rw [neg_div, hdivdiv]

theorem valD_of_toInt_nonneg {x : HaInt} {k : Nat} (h : toInt x = (k : Int)) :
    valD x.digits = k := by
  unfold toInt at h
  cases hs : x.sign <;> rw [hs] at h <;> simp at h <;> omega

theorem mult_div_sign_true {x y : HaInt} (hx : x.sign = true)
    (hy : y.sign = true) : mult_div_sign x y = true := by
  unfold mult_div_sign
  split_ifs with h
  · rfl
  · rw [hx, hy]
    rfl

theorem ha_frac_create_of_ints {x y : HaInt} (hx : WF x) (hy : WF y)
    (hyz : toInt y ≠ 0) :
    ha_frac_create (ha_int_to_str x) (ha_int_to_str y) = ha_frac_reduc x y := by
  unfold ha_frac_create
  rw [to_str_create hx, to_str_create hy]
  simp only []
  rw [if_neg (fun hc => hyz ((ha_int_sign_zero_iff hy).mp hc))]

theorem combine_create_step {newNume newDenom : HaInt} (hw : WF newNume)
    (h3 : WF newDenom) (hDz : toInt newDenom ≠ 0) :
    ∃ r0, ha_frac_create (ha_int_to_str newNume) (ha_int_to_str newDenom)
        = some r0 ∧ Canonical r0 ∧
      fracVal r0 = (toInt newNume : ℚ) / (toInt newDenom : ℚ) := by
  rw [ha_frac_create_of_ints hw h3 hDz]
  exact ha_frac_reduc_correct hw h3 hDz

theorem canonical_nega_false_of_pos {r : HaFrac}
    (hp : 0 < fracVal r) : r.nega = false := by
  cases hng : r.nega
  · rfl
  · exfalso
    unfold fracVal at hp
    rw [hng] at hp
    simp only [if_true] at hp
    have h1 : (0 : ℚ) ≤ (valD r.nume.digits : ℚ) := by positivity
    have h2 : (0 : ℚ) ≤ (valD r.denom.digits : ℚ) := by positivity
    have h3 : -(valD r.nume.digits : ℚ) / (valD r.denom.digits : ℚ) ≤ 0 := by
      apply div_nonpos_of_nonpos_of_nonneg <;> linarith
    linarith

theorem canonical_nume_pos_of_ne_zero {r : HaFrac}
    (hne : fracVal r ≠ 0) : 0 < valD r.nume.digits := by
  rcases Nat.eq_zero_or_pos (valD r.nume.digits) with h0 | h0
  · exfalso
    apply hne
    unfold fracVal
    rw [h0]
    simp
  · exact h0

theorem ha_frac_add_combine_correct {n m : HaFrac} {newN newM newDenom : HaInt}
    (h1 : WF newN) (h2 : WF newM) (h3 : WF newDenom)
    (hs1 : newN.sign = true) (hs2 : newM.sign = true)
    (hs3 : newDenom.sign = true) (hD : 0 < valD newDenom.digits)
    (hr1 : (valD newN.digits : ℚ) / (valD newDenom.digits : ℚ)
           = (valD n.nume.digits : ℚ) / (valD n.denom.digits : ℚ))
    (hr2 : (valD newM.digits : ℚ) / (valD newDenom.digits : ℚ)
           = (valD m.nume.digits : ℚ) / (valD m.denom.digits : ℚ))
    (hmixv : n.nega = true → m.nega = true →
      0 < valD newN.digits ∨ 0 < valD newM.digits) :
    ∃ r, ha_frac_add_combine n m newN newM newDenom = some r ∧ Canonical r ∧
      fracVal r = fracVal n + fracVal m := by
  have hDz : toInt newDenom ≠ 0 := by
    rw [toInt_of_sign_true hs3]
    exact_mod_cast hD.ne'
  have hDQ : ((valD newDenom.digits : ℚ)) ≠ 0 := by
    exact_mod_cast hD.ne'
  have hNi : toInt newN = (valD newN.digits : Int) := toInt_of_sign_true hs1
  have hMi : toInt newM = (valD newM.digits : Int) := toInt_of_sign_true hs2
  have hDi : toInt newDenom = (valD newDenom.digits : Int) :=
    toInt_of_sign_true hs3
  have hfn_neg : n.nega = true → fracVal n
      = -((valD n.nume.digits : ℚ) / (valD n.denom.digits : ℚ)) := by
    intro h
    unfold fracVal
    rw [h]
    simp only [if_true]
    rw [neg_div]
  have hfn_pos : n.nega = false → fracVal n
      = (valD n.nume.digits : ℚ) / (valD n.denom.digits : ℚ) := by
    intro h
    unfold fracVal
    rw [h]
    simp
  have hfm_neg : m.nega = true → fracVal m
      = -((valD m.nume.digits : ℚ) / (valD m.denom.digits : ℚ)) := by
    intro h
    unfold fracVal
    rw [h]
    simp only [if_true]
    rw [neg_div]
  have hfm_pos : m.nega = false → fracVal m
      = (valD m.nume.digits : ℚ) / (valD m.denom.digits : ℚ) := by
    intro h
    unfold fracVal
    rw [h]
    simp
  unfold ha_frac_add_combine
  by_cases hnn : n.nega = true
  · by_cases hmm : m.nega = true
    · -- both negative: magnitudes add, sign forced negative afterwards
      rw [if_pos (Or.inl ⟨hnn, hmm⟩)]
      obtain ⟨haddv, haddw⟩ := ha_int_add_correct h1 h2.1
      obtain ⟨r0, hr0eq, hr0c, hr0v⟩ := combine_create_step haddw h3 hDz
      rw [hr0eq]
      simp only []
      rw [if_pos ⟨hnn, hmm⟩]
      have hsum : toInt (ha_int_add newN newM)
          = (valD newN.digits : Int) + valD newM.digits := by
        rw [haddv, hNi, hMi]
      have hpos : 0 < valD newN.digits + valD newM.digits := by
        rcases hmixv hnn hmm with h | h <;> omega
      have hr0val : fracVal r0 = ((valD newN.digits : ℚ) + valD newM.digits) /
          (valD newDenom.digits : ℚ) := by
        rw [hr0v, hsum, hDi]
        push_cast
        ring
      have hr0pos : 0 < fracVal r0 := by
        rw [hr0val]
        have hnum : (0 : ℚ) < (valD newN.digits : ℚ) + valD newM.digits := by
          exact_mod_cast hpos
        positivity
      have hr0nega : r0.nega = false := canonical_nega_false_of_pos hr0pos
      have hr0nume : 0 < valD r0.nume.digits :=
        canonical_nume_pos_of_ne_zero hr0pos.ne'
      refine ⟨{ r0 with nega := true }, rfl, ?_, ?_⟩
      · obtain ⟨c1, c2, c3, c4, c5, c6, _⟩ := hr0c
        refine ⟨c1, c2, c3, c4, c5, c6, fun hzz => ?_⟩
        exfalso
        simp only [] at hzz
        omega
      · have hfr : fracVal { r0 with nega := true } = -(fracVal r0) := by
          unfold fracVal
          simp only []
          rw [hr0nega]
          simp only [if_true, Bool.false_eq_true, if_false]
          rw [neg_div]
        rw [hfr, hr0val, hfn_neg hnn, hfm_neg hmm, ← hr1, ← hr2]
        ring
    · -- n negative, m non-negative: newM - newN
      rw [if_neg (by
        rintro (⟨_, h⟩ | ⟨h, _⟩)
        · exact hmm h
        · exact h hnn)]
      rw [if_pos hnn]
      have hmmf : m.nega = false := by
        cases h : m.nega
        · rfl
        · exact absurd h hmm
      obtain ⟨hsubv, hsubw⟩ := ha_int_sub_correct h2 h1.1
      obtain ⟨r0, hr0eq, hr0c, hr0v⟩ := combine_create_step hsubw h3 hDz
      rw [hr0eq]
      simp only []
      rw [if_neg (by rintro ⟨_, h⟩; exact hmm h)]
      refine ⟨r0, rfl, hr0c, ?_⟩
      have hdiff : toInt (ha_int_sub newM newN)
          = (valD newM.digits : Int) - valD newN.digits := by
        rw [hsubv, hNi, hMi]
      have hr0val : fracVal r0 = ((valD newM.digits : ℚ) - valD newN.digits) /
          (valD newDenom.digits : ℚ) := by
        rw [hr0v, hdiff, hDi]
        push_cast
        ring
      rw [hr0val, hfn_neg hnn, hfm_pos hmmf, ← hr1, ← hr2]
      ring
  · have hnnf : n.nega = false := by
      cases h : n.nega
      · rfl
      · exact absurd h hnn
    by_cases hmm : m.nega = true
    · -- n non-negative, m negative: newN - newM
      rw [if_neg (by
        rintro (⟨h, _⟩ | ⟨_, h⟩)
        · exact hnn h
        · exact h hmm)]
      rw [if_neg hnn]
      obtain ⟨hsubv, hsubw⟩ := ha_int_sub_correct h1 h2.1
      obtain ⟨r0, hr0eq, hr0c, hr0v⟩ := combine_create_step hsubw h3 hDz
      rw [hr0eq]
      simp only []
      rw [if_neg (by rintro ⟨h, _⟩; exact hnn h)]
      refine ⟨r0, rfl, hr0c, ?_⟩
      have hdiff : toInt (ha_int_sub newN newM)
          = (valD newN.digits : Int) - valD newM.digits := by
        rw [hsubv, hNi, hMi]
      have hr0val : fracVal r0 = ((valD newN.digits : ℚ) - valD newM.digits) /
          (valD newDenom.digits : ℚ) := by
        rw [hr0v, hdiff, hDi]
        push_cast
        ring
      rw [hr0val, hfn_pos hnnf, hfm_neg hmm, ← hr1, ← hr2]
      ring
    · -- both non-negative: magnitudes add
      have hmmf : m.nega = false := by
        cases h : m.nega
        · rfl
        · exact absurd h hmm
      rw [if_pos (Or.inr ⟨hnn, hmm⟩)]
      obtain ⟨haddv, haddw⟩ := ha_int_add_correct h1 h2.1
      obtain ⟨r0, hr0eq, hr0c, hr0v⟩ := combine_create_step haddw h3 hDz
      rw [hr0eq]
      simp only []
      rw [if_neg (by rintro ⟨h, _⟩; exact hnn h)]
      refine ⟨r0, rfl, hr0c, ?_⟩
      have hsum : toInt (ha_int_add newN newM)
          = (valD newN.digits : Int) + valD newM.digits := by
        rw [haddv, hNi, hMi]
      have hr0val : fracVal r0 = ((valD newN.digits : ℚ) + valD newM.digits) /
          (valD newDenom.digits : ℚ) := by
        rw [hr0v, hsum, hDi]
        push_cast
        ring
      rw [hr0val, hfn_pos hnnf, hfm_pos hmmf, ← hr1, ← hr2]
      ring

theorem ha_frac_add_correct {n m : HaFrac} (hn : AddOk n) (hm : AddOk m)
    (hmix : n.nega = true → m.nega = true →
      0 < valD n.nume.digits ∨ 0 < valD m.nume.digits) :
    ∃ r, ha_frac_add n m = some r ∧ Canonical r ∧
      fracVal r = fracVal n + fracVal m := by
  obtain ⟨hn1, hn2, hn3, hn4, hn5⟩ := hn
  obtain ⟨hm1, hm2, hm3, hm4, hm5⟩ := hm
  have hcmp := ha_int_cmp_spec hn2 hm2
  rw [toInt_of_sign_true hn4, toInt_of_sign_true hm4] at hcmp
  unfold ha_frac_add
  by_cases heq : valD n.denom.digits = valD m.denom.digits
  · have hcmp0 : ha_int_cmp n.denom m.denom = 0 := by
      rw [hcmp, if_neg (by rw [heq]; exact lt_irrefl _),
        if_pos (by exact_mod_cast heq)]
    rw [if_pos hcmp0]
    apply ha_frac_add_combine_correct hn1 hm1 hn2 hn3 hm3 hn4 hn5
    · rfl
    · rw [heq]
    · exact hmix
  · have hcmpne : ¬ ha_int_cmp n.denom m.denom = 0 := by
      rw [hcmp]
      split_ifs with h1 h2
      · exact one_ne_zero
      · exact absurd (by exact_mod_cast h2) heq
      · intro hc
        cases hc
    rw [if_neg hcmpne]
    have hgcd : ∃ g, (if ha_int_cmp n.denom m.denom > 0 then
          get_gcd (valD m.denom.digits + 1) m.denom n.denom
        else get_gcd (valD n.denom.digits + 1) n.denom m.denom) = some g ∧
        WF g ∧ g.sign = true ∧ 0 < valD g.digits ∧
        valD g.digits = Nat.gcd (valD n.denom.digits) (valD m.denom.digits) := by
      by_cases hlt : valD m.denom.digits < valD n.denom.digits
      · have hcmp1 : ha_int_cmp n.denom m.denom = 1 := by
          rw [hcmp, if_pos (by exact_mod_cast hlt)]
        rw [if_pos (by rw [hcmp1]; norm_num)]
        obtain ⟨g, hg, hgw, hgs, hgp, hgv⟩ := get_gcd_spec
          (valD m.denom.digits + 1) m.denom n.denom hm2 hn2 hm4 hn4
          hm5 hn5 (by omega)
        exact ⟨g, hg, hgw, hgs, hgp, by rw [hgv]; exact Nat.gcd_comm _ _⟩
      · have hcmpm1 : ha_int_cmp n.denom m.denom = -1 := by
          rw [hcmp, if_neg (by exact_mod_cast hlt),
            if_neg (by intro hc; exact heq (by exact_mod_cast hc))]
        rw [if_neg (by rw [hcmpm1]; norm_num)]
        obtain ⟨g, hg, hgw, hgs, hgp, hgv⟩ := get_gcd_spec
          (valD n.denom.digits + 1) n.denom m.denom hn2 hm2 hn4 hm4
          hn5 hm5 (by omega)
        exact ⟨g, hg, hgw, hgs, hgp, hgv⟩
    obtain ⟨g, hgeq, hgw, hgs, hgp, hgv⟩ := hgcd
    have hgz : is_zero g = false := by
      cases hzz : is_zero g
      · rfl
      · exfalso
        have := is_zero_iff.mp hzz
        rw [this] at hgp
        simp [valD] at hgp
    have hdvd_n : valD g.digits ∣ valD n.denom.digits :=
      hgv ▸ Nat.gcd_dvd_left _ _
    have hdvd_m : valD g.digits ∣ valD m.denom.digits :=
      hgv ▸ Nat.gcd_dvd_right _ _
    obtain ⟨nMult, hq1, hq1w, hq1v, hq1i⟩ := ha_int_quotient_correct hm2 hgw hgz
    obtain ⟨mMult, hq2, hq2w, hq2v, hq2i⟩ := ha_int_quotient_correct hn2 hgw hgz
    rw [hgeq]
    simp only []
    rw [hq1, hq2]
    simp only []
    have hnM_pos : 0 < valD nMult.digits := by
      rw [hq1v]
      exact Nat.div_pos (Nat.le_of_dvd hm5 hdvd_m) hgp
    have hmM_pos : 0 < valD mMult.digits := by
      rw [hq2v]
      exact Nat.div_pos (Nat.le_of_dvd hn5 hdvd_n) hgp
    have hnM_sgn : nMult.sign = true := by
      apply sign_true_of_pos hq1w
      rw [hq1i, if_pos (by rw [hm4, hgs])]
      exact_mod_cast hq1v ▸ hnM_pos
    have hmM_sgn : mMult.sign = true := by
      apply sign_true_of_pos hq2w
      rw [hq2i, if_pos (by rw [hn4, hgs])]
      exact_mod_cast hq2v ▸ hmM_pos
    obtain ⟨hv_newN, hwd_newN⟩ :=
      ha_int_mult_digits nMult n.nume hq1w.1.1 hq1w.1.2.1 hn1.1.2.1
    obtain ⟨hv_newM, hwd_newM⟩ :=
      ha_int_mult_digits mMult m.nume hq2w.1.1 hq2w.1.2.1 hm1.1.2.1
    obtain ⟨hv_newD, hwd_newD⟩ :=
      ha_int_mult_digits nMult n.denom hq1w.1.1 hq1w.1.2.1 hn2.1.2.1
    have hw_newN := (ha_int_mult_correct hq1w hn1).2
    have hw_newM := (ha_int_mult_correct hq2w hm1).2
    have hw_newD := (ha_int_mult_correct hq1w hn2).2
    have hs_newN : (ha_int_mult nMult n.nume).sign = true :=
      mult_div_sign_true hnM_sgn hn3
    have hs_newM : (ha_int_mult mMult m.nume).sign = true :=
      mult_div_sign_true hmM_sgn hm3
    have hs_newD : (ha_int_mult nMult n.denom).sign = true :=
      mult_div_sign_true hnM_sgn hn4
    have hD_pos : 0 < valD (ha_int_mult nMult n.denom).digits := by
      rw [hv_newD]
      positivity
    have hGQ : (valD g.digits : ℚ) ≠ 0 := by
      exact_mod_cast hgp.ne'
    have hndQ : (valD n.denom.digits : ℚ) ≠ 0 := by
      exact_mod_cast hn5.ne'
    have hmdQ : (valD m.denom.digits : ℚ) ≠ 0 := by
      exact_mod_cast hm5.ne'
    have hnMQ : ((valD nMult.digits : ℚ)) ≠ 0 := by
      exact_mod_cast hnM_pos.ne'
    have hcast_nM : (valD nMult.digits : ℚ)
        = (valD m.denom.digits : ℚ) / (valD g.digits : ℚ) := by
      rw [hq1v]
      exact Nat.cast_div hdvd_m hGQ
    have hcast_mM : (valD mMult.digits : ℚ)
        = (valD n.denom.digits : ℚ) / (valD g.digits : ℚ) := by
      rw [hq2v]
      exact Nat.cast_div hdvd_n hGQ
    apply ha_frac_add_combine_correct hw_newN hw_newM hw_newD
      hs_newN hs_newM hs_newD hD_pos
    · rw [hv_newN, hv_newD]
      push_cast
      rw [mul_div_mul_left _ _ hnMQ]
    · rw [hv_newM, hv_newD]
      push_cast
      rw [hcast_nM, hcast_mM]
      field_simp
      ring
    · intro h1 h2
      rcases hmix h1 h2 with h | h
      · left
        rw [hv_newN]
        positivity
      · right
        rw [hv_newM]
        positivity

theorem canonical_addOk {f : HaFrac} (h : Canonical f) : AddOk f :=
  ⟨h.1, h.2.1, h.2.2.1, h.2.2.2.1, h.2.2.2.2.1⟩

theorem canonical_nega_nume_pos {f : HaFrac} (h : Canonical f)
    (hn : f.nega = true) : 0 < valD f.nume.digits := by
  rcases Nat.eq_zero_or_pos (valD f.nume.digits) with h0 | h0
  · have := (h.2.2.2.2.2.2 h0).1
    rw [hn] at this
    cases this
  · exact h0

theorem fracVal_flip (m : HaFrac) :
    fracVal ⟨!m.nega, m.nume, m.denom⟩ = -fracVal m := by
  unfold fracVal
  cases hm : m.nega
  · simp only [hm, Bool.not_false, if_true, Bool.false_eq_true, if_false]
    rw [neg_div]
  · simp only [hm, Bool.not_true, if_true, Bool.false_eq_true, if_false]
    rw [neg_div]
    ring

theorem ha_frac_sub_correct {n m : HaFrac} (hn : Canonical n)
    (hm : Canonical m) :
    ∃ r, ha_frac_sub n m = some r ∧ Canonical r ∧
      fracVal r = fracVal n - fracVal m := by
  unfold ha_frac_sub
  have hm' : AddOk ⟨!m.nega, m.nume, m.denom⟩ := by
    obtain ⟨h1, h2, h3, h4, h5⟩ := canonical_addOk hm
    exact ⟨h1, h2, h3, h4, h5⟩
  have hmix : n.nega = true → (⟨!m.nega, m.nume, m.denom⟩ : HaFrac).nega = true →
      0 < valD n.nume.digits ∨
      0 < valD (⟨!m.nega, m.nume, m.denom⟩ : HaFrac).nume.digits := by
    intro h1 _
    left
    exact canonical_nega_nume_pos hn h1
  obtain ⟨r, hr, hrc, hrv⟩ := ha_frac_add_correct (canonical_addOk hn) hm' hmix
  refine ⟨r, hr, hrc, ?_⟩
  rw [hrv, fracVal_flip]
  ring

theorem ha_frac_mult_correct {n m : HaFrac} (hn : Canonical n)
    (hm : Canonical m) :
    ∃ r, ha_frac_mult n m = some r ∧ Canonical r := by
  obtain ⟨hn1, hn2, hn3, hn4, hn5, hn6, hn7⟩ := hn
  obtain ⟨hm1, hm2, hm3, hm4, hm5, hm6, hm7⟩ := hm
  have hw_nume := (ha_int_mult_correct hn1 hm1).2
  have hw_denom := (ha_int_mult_correct hn2 hm2).2
  obtain ⟨hv_nume, _⟩ := ha_int_mult_digits n.nume m.nume hn1.1.1
    hn1.1.2.1 hm1.1.2.1
  obtain ⟨hv_denom, _⟩ := ha_int_mult_digits n.denom m.denom hn2.1.1
    hn2.1.2.1 hm2.1.2.1
  have hs_denom : (ha_int_mult n.denom m.denom).sign = true :=
    mult_div_sign_true hn4 hm4
  have hD_pos : 0 < valD (ha_int_mult n.denom m.denom).digits := by
    rw [hv_denom]
    positivity
  have hDz : toInt (ha_int_mult n.denom m.denom) ≠ 0 := by
    rw [toInt_of_sign_true hs_denom]
    exact_mod_cast hD_pos.ne'
  obtain ⟨r0, hr0eq, hr0c, hr0v⟩ :=
    combine_create_step hw_nume hw_denom hDz
  unfold ha_frac_mult
  simp only [hr0eq]
  refine ⟨_, rfl, ?_⟩
  obtain ⟨c1, c2, c3, c4, c5, c6, c7⟩ := hr0c
  by_cases hcond : n.nega = m.nega ∨ ha_int_sign n.nume = 0 ∨
      ha_int_sign m.nume = 0
  · rw [if_pos hcond]
    refine ⟨c1, c2, c3, c4, c5, c6, fun h0 => ?_⟩
    obtain ⟨_, hb, hc⟩ := c7 h0
    exact ⟨rfl, hb, hc⟩
  · rw [if_neg hcond]
    push_neg at hcond
    obtain ⟨hne, hsn, hsm⟩ := hcond
    have hnn_pos : 0 < valD n.nume.digits := by
      rcases Nat.eq_zero_or_pos (valD n.nume.digits) with h0 | h0
      · exfalso
        apply hsn
        rw [ha_int_sign_zero_iff hn1, toInt_of_sign_true hn3, h0]
        rfl
      · exact h0
    have hmn_pos : 0 < valD m.nume.digits := by
      rcases Nat.eq_zero_or_pos (valD m.nume.digits) with h0 | h0
      · exfalso
        apply hsm
        rw [ha_int_sign_zero_iff hm1, toInt_of_sign_true hm3, h0]
        rfl
      · exact h0
    have hval_pos : 0 < fracVal r0 := by
      rw [hr0v]
      rw [toInt_of_sign_true (mult_div_sign_true hn3 hm3),
        toInt_of_sign_true hs_denom]
      rw [hv_nume, hv_denom]
      have h1 : (0:ℚ) < ((valD n.nume.digits * valD m.nume.digits : Nat) : ℚ) := by
        have : 0 < valD n.nume.digits * valD m.nume.digits := by positivity
        exact_mod_cast this
      have h2 : (0:ℚ) < ((valD n.denom.digits * valD m.denom.digits : Nat) : ℚ) := by
        have : 0 < valD n.denom.digits * valD m.denom.digits := by positivity
        exact_mod_cast this
      push_cast at h1 h2 ⊢
      positivity
    have hr0n_pos : 0 < valD r0.nume.digits :=
      canonical_nume_pos_of_ne_zero hval_pos.ne'
    refine ⟨c1, c2, c3, c4, c5, c6, fun h0 => ?_⟩
    exfalso
    simp only [] at h0
    omega

theorem ha_frac_div_correct {n m : HaFrac} (hn : Canonical n)
    (hm : Canonical m) (hz : ha_int_sign m.nume ≠ 0) :
    ∃ r, ha_frac_div n m = DivResult.ok r ∧ Canonical r := by
  obtain ⟨hm1, hm2, hm3, hm4, hm5, hm6, hm7⟩ := hm
  have hmn_pos : 0 < valD m.nume.digits := by
    rcases Nat.eq_zero_or_pos (valD m.nume.digits) with h0 | h0
    · exfalso
      apply hz
      rw [ha_int_sign_zero_iff hm1, toInt_of_sign_true hm3, h0]
      rfl
    · exact h0
  have hreci : Canonical ⟨m.nega, m.denom, m.nume⟩ := by
    refine ⟨hm2, hm1, hm4, hm3, hmn_pos, ?_, ?_⟩
    · simp only []
      rw [Nat.gcd_comm]
      exact hm6
    · intro h0
      simp only [] at h0
      omega
  obtain ⟨r, hr, hrc⟩ := ha_frac_mult_correct hn hreci
  refine ⟨r, ?_, hrc⟩
  unfold ha_frac_div
  rw [if_neg hz, hr]

theorem ha_frac_cmp_correct {n m : HaFrac} (hn : Canonical n)
    (hm : Canonical m) :
    ∃ c, ha_frac_cmp n m = some c ∧
      (c = 1 ↔ fracVal m < fracVal n) ∧
      (c = 0 ↔ fracVal n = fracVal m) ∧
      (c = -1 ↔ fracVal n < fracVal m) := by
  obtain ⟨d, hd, hdc, hdv⟩ := ha_frac_sub_correct hn hm
  unfold ha_frac_cmp
  rw [hd]
  simp only [Option.map_some']
  have hdenQ : (0:ℚ) < (valD d.denom.digits : ℚ) := by
    exact_mod_cast hdc.2.2.2.2.1
  by_cases hng : d.nega = true
  · have hnum : 0 < valD d.nume.digits := canonical_nega_nume_pos hdc hng
    have hneg : fracVal d < 0 := by
      unfold fracVal
      rw [hng]
      simp only [if_true]
      apply div_neg_of_neg_of_pos _ hdenQ
      have : (0:ℚ) < (valD d.nume.digits : ℚ) := by exact_mod_cast hnum
      linarith
    rw [if_pos hng]
    refine ⟨-1, rfl, ?_, ?_, ?_⟩
    · constructor
      · intro hc
        cases hc
      · intro hc
        exfalso
        have : 0 < fracVal d := by rw [hdv]; linarith
        linarith
    · constructor
      · intro hc
        cases hc
      · intro hc
        exfalso
        have : fracVal d = 0 := by rw [hdv]; linarith
        linarith
    · constructor
      · intro _
        have : fracVal d < 0 := hneg
        rw [hdv] at this
        linarith
      · intro _
        rfl
  · have hngf : d.nega = false := by
      cases h : d.nega
      · rfl
      · exact absurd h hng
    rw [if_neg hng]
    by_cases h0 : ha_int_sign d.nume = 0
    · have hnum0 : valD d.nume.digits = 0 := by
        have := (ha_int_sign_zero_iff hdc.1).mp h0
        rw [toInt_of_sign_true hdc.2.2.1] at this
        exact_mod_cast this
      have hdval : fracVal d = 0 := by
        unfold fracVal
        rw [hnum0]
        simp
      rw [if_pos h0]
      refine ⟨0, rfl, ?_, ?_, ?_⟩
      · constructor
        · intro hc
          cases hc
        · intro hc
          exfalso
          rw [hdv] at hdval
          linarith
      · constructor
        · intro _
          rw [hdv] at hdval
          linarith
        · intro _
          rfl
      · constructor
        · intro hc
          cases hc
        · intro hc
          exfalso
          rw [hdv] at hdval
          linarith
    · have hnum : 0 < valD d.nume.digits := by
        rcases Nat.eq_zero_or_pos (valD d.nume.digits) with hv0 | hv0
        · exfalso
          apply h0
          rw [ha_int_sign_zero_iff hdc.1, toInt_of_sign_true hdc.2.2.1, hv0]
          rfl
        · exact hv0
      have hpos : 0 < fracVal d := by
        unfold fracVal
        rw [hngf]
        simp only [Bool.false_eq_true, if_false]
        apply div_pos _ hdenQ
        exact_mod_cast hnum
      rw [if_neg h0]
      refine ⟨1, rfl, ?_, ?_, ?_⟩
      · constructor
        · intro _
          rw [hdv] at hpos
          linarith
        · intro _
          rfl
      · constructor
        · intro hc
          cases hc
        · intro hc
          exfalso
          rw [hdv] at hpos
          linarith
      · constructor
        · intro hc
          cases hc
        · intro hc
          exfalso
          rw [hdv] at hpos
          linarith

theorem ha_frac_create_canonical {s1 s2 : String} {f : HaFrac}
    (h : ha_frac_create s1 s2 = some f) : Canonical f := by
  unfold ha_frac_create at h
  match h1 : ha_int_create s1, h2 : ha_int_create s2 with
  | none, _ =>
    rw [h1] at h
    cases h
  | some nume, none =>
    rw [h1, h2] at h
    cases h
  | some nume, some denom =>
    rw [h1, h2] at h
    simp only [] at h
    by_cases hz : ha_int_sign denom = 0
    · rw [if_pos hz] at h
      cases h
    · rw [if_neg hz] at h
      have hdw : WF denom := WF_create h2
      have hdz : toInt denom ≠ 0 :=
        fun hc => hz ((ha_int_sign_zero_iff hdw).mpr hc)
      obtain ⟨f', hf', hc', _⟩ :=
        ha_frac_reduc_correct (WF_create h1) hdw hdz
      rw [hf'] at h
      cases h
      exact hc'

/-! The claims. -/

/-- C1: for every well-formed `ha_int` `n` and every non-zero `m`, the
division identity holds exactly:
`n = ha_int_add (ha_int_mult m (ha_int_quotient n m)) (ha_int_remainder n m)`,
and the remainder is computed by re-using `ha_int_quotient`, `ha_int_mult`
and `ha_int_sub` (`r = ha_int_sub n (ha_int_mult m q)`) rather than by
tracking the division remainder directly. -/
theorem claim_C1 (n m : HaInt) (hn : WF n) (hm : WF m)
    (hz : is_zero m = false) :
    ∃ q r, ha_int_quotient n m = some q ∧ ha_int_remainder n m = some r ∧
      r = ha_int_sub n (ha_int_mult m q) ∧
      ha_int_add (ha_int_mult m q) r = n := by
  obtain ⟨q, r, hq, hr, hrwf, hreq, hri⟩ := ha_int_remainder_correct hn hm hz
  obtain ⟨q2, hq2, hq2w, _, _⟩ := ha_int_quotient_correct hn hm hz
  have hqq : q2 = q := by
    rw [hq] at hq2
    exact (Option.some.inj hq2).symm
  rw [hqq] at hq2w
  refine ⟨q, r, hq, hr, hreq, ?_⟩
  have hmul := ha_int_mult_correct hm hq2w
  have hadd := ha_int_add_correct hmul.2 hrwf.1
  apply toInt_inj hadd.2 hn
  rw [hadd.1, hmul.1, hri]
  ring

theorem claim_C1_witness :
    WF ⟨false, [7]⟩ ∧ WF ⟨true, [2]⟩ ∧ is_zero ⟨true, [2]⟩ = false ∧
    (∃ q r, ha_int_quotient ⟨false, [7]⟩ ⟨true, [2]⟩ = some q ∧
      ha_int_remainder ⟨false, [7]⟩ ⟨true, [2]⟩ = some r ∧
      r = ha_int_sub ⟨false, [7]⟩ (ha_int_mult ⟨true, [2]⟩ q) ∧
      ha_int_add (ha_int_mult ⟨true, [2]⟩ q) r = ⟨false, [7]⟩) :=
  ⟨by decide, by decide, by decide,
    claim_C1 ⟨false, [7]⟩ ⟨true, [2]⟩ (by decide) (by decide) (by decide)⟩

/-- C3: `ha_int_create` succeeds exactly on the strings of the claimed
grammar — an optional leading `-` followed by one or more decimal digits,
no superfluous leading zeros, not `"-0"`, not empty, no non-digit
characters — and in particular `ha_int_create "-0"` fails. -/
theorem claim_C3 :
    (∀ s : String, (ha_int_create s).isSome = validIntString s) ∧
    ha_int_create "-0" = none :=
  ⟨create_isSome, by decide⟩

/-- C4: printing inverts parsing — for every string the parser accepts,
`ha_int_to_str` returns exactly that string, and the printed form is always
in the canonical grammar. -/
theorem claim_C4 (s : String) (n : HaInt) (h : ha_int_create s = some n) :
    ha_int_to_str n = s ∧ validIntString (ha_int_to_str n) = true := by
  have h1 := create_to_str h
  refine ⟨h1, ?_⟩
  rw [h1, ← create_isSome, h]
  rfl

theorem claim_C4_witness :
    ha_int_create "-12" = some ⟨false, [2, 1]⟩ ∧
    (ha_int_to_str ⟨false, [2, 1]⟩ = "-12" ∧
     validIntString (ha_int_to_str ⟨false, [2, 1]⟩) = true) :=
  ⟨by decide, claim_C4 "-12" ⟨false, [2, 1]⟩ (by decide)⟩

/-- C5: `ha_int_quotient` truncates toward zero with the multiplication
sign rule: `-7 / 2 = -3` (not `-4`), `-7 mod 2 = -1`, and the two results
satisfy the division identity. -/
theorem claim_C5 :
    ha_int_create "-7" = some ⟨false, [7]⟩ ∧
    ha_int_create "2" = some ⟨true, [2]⟩ ∧
    ha_int_quotient ⟨false, [7]⟩ ⟨true, [2]⟩ = some ⟨false, [3]⟩ ∧
    ha_int_remainder ⟨false, [7]⟩ ⟨true, [2]⟩ = some ⟨false, [1]⟩ ∧
    ha_int_to_str ⟨false, [3]⟩ = "-3" ∧
    ha_int_to_str ⟨false, [1]⟩ = "-1" ∧
    toInt ⟨false, [3]⟩ = -3 ∧
    toInt ⟨false, [1]⟩ = -1 ∧
    ha_int_add (ha_int_mult ⟨true, [2]⟩ ⟨false, [3]⟩) ⟨false, [1]⟩
      = ⟨false, [7]⟩ := by
  refine ⟨by decide, by decide, by decide, by decide, by decide, by decide,
    by decide, by decide, by decide⟩

/-- C2: every fraction produced by a success path of `ha_frac_create`,
`ha_frac_add`, `ha_frac_sub`, `ha_frac_mult` or `ha_frac_div` satisfies the
canonical-form invariants: reduced (`gcd = 1`), strictly positive
denominator, canonical zero `(false, 0, 1)`, and sign carried only in the
`nega` flag over non-negative magnitudes. -/
theorem claim_C2 :
    (∀ s1 s2 f, ha_frac_create s1 s2 = some f → Canonical f) ∧
    (∀ n m r, Canonical n → Canonical m → ha_frac_add n m = some r →
      Canonical r) ∧
    (∀ n m r, Canonical n → Canonical m → ha_frac_sub n m = some r →
      Canonical r) ∧
    (∀ n m r, Canonical n → Canonical m → ha_frac_mult n m = some r →
      Canonical r) ∧
    (∀ n m r, Canonical n → Canonical m → ha_frac_div n m = DivResult.ok r →
      Canonical r) := by
  refine ⟨?_, ?_, ?_, ?_, ?_⟩
  · intro s1 s2 f h
    exact ha_frac_create_canonical h
  · intro n m r hn hm h
    have hmix : n.nega = true → m.nega = true →
        0 < valD n.nume.digits ∨ 0 < valD m.nume.digits := fun h1 _ =>
      Or.inl (canonical_nega_nume_pos hn h1)
    obtain ⟨r2, hr2, hc, _⟩ :=
      ha_frac_add_correct (canonical_addOk hn) (canonical_addOk hm) hmix
    rw [h] at hr2
    exact (Option.some.inj hr2) ▸ hc
  · intro n m r hn hm h
    obtain ⟨r2, hr2, hc, _⟩ := ha_frac_sub_correct hn hm
    rw [h] at hr2
    exact (Option.some.inj hr2) ▸ hc
  · intro n m r hn hm h
    obtain ⟨r2, hr2, hc⟩ := ha_frac_mult_correct hn hm
    rw [h] at hr2
    exact (Option.some.inj hr2) ▸ hc
  · intro n m r hn hm h
    by_cases hz : ha_int_sign m.nume = 0
    · rw [ha_frac_div, if_pos hz] at h
      cases h
    · obtain ⟨r2, hr2, hc⟩ := ha_frac_div_correct hn hm hz
      rw [h] at hr2
      exact (DivResult.ok.inj hr2) ▸ hc

theorem claim_C2_witness :
    Canonical ⟨false, oneInt, ⟨true, [2]⟩⟩ ∧
    Canonical ⟨false, oneInt, ⟨true, [3]⟩⟩ ∧
    ha_frac_add ⟨false, oneInt, ⟨true, [2]⟩⟩ ⟨false, oneInt, ⟨true, [3]⟩⟩
      = some ⟨false, ⟨true, [5]⟩, ⟨true, [6]⟩⟩ ∧
    Canonical ⟨false, ⟨true, [5]⟩, ⟨true, [6]⟩⟩ :=
  ⟨by decide, by decide, by decide,
    claim_C2.2.1 ⟨false, oneInt, ⟨true, [2]⟩⟩ ⟨false, oneInt, ⟨true, [3]⟩⟩
      ⟨false, ⟨true, [5]⟩, ⟨true, [6]⟩⟩ (by decide) (by decide) (by decide)⟩

/-- C6 (amended): `ha_frac_div` enforces `m ≠ 0` by a precondition `assert`
that aborts the process — not by surfacing a typed `DivisionByZero` failure
to the caller.  On a zero divisor the call never reaches the `NULL`-style
failure path and never produces a fraction value. -/
theorem claim_C6 (n m : HaFrac) (hz : ha_int_sign m.nume = 0) :
    ha_frac_div n m = DivResult.assertFail ∧
    (∀ r, ha_frac_div n m ≠ DivResult.ok r) ∧
    ha_frac_div n m ≠ DivResult.invalid := by
  have h : ha_frac_div n m = DivResult.assertFail := by
    rw [ha_frac_div, if_pos hz]
  refine ⟨h, ?_, ?_⟩
  · intro r hc
    rw [h] at hc
    cases hc
  · intro hc
    rw [h] at hc
    cases hc

theorem claim_C6_witness :
    ha_int_sign (⟨false, zeroInt, oneInt⟩ : HaFrac).nume = 0 ∧
    (ha_frac_div ⟨false, oneInt, ⟨true, [2]⟩⟩ ⟨false, zeroInt, oneInt⟩
        = DivResult.assertFail ∧
      (∀ r, ha_frac_div ⟨false, oneInt, ⟨true, [2]⟩⟩ ⟨false, zeroInt, oneInt⟩
        ≠ DivResult.ok r) ∧
      ha_frac_div ⟨false, oneInt, ⟨true, [2]⟩⟩ ⟨false, zeroInt, oneInt⟩
        ≠ DivResult.invalid) :=
  ⟨by decide, claim_C6 _ _ (by decide)⟩

/-- C6, the counterexample to the claim as stated: on
`divide(create("1","2"), create("0","1"))` the code trips the `assert`
(process abort), which is not the typed-failure result the claim requires —
the `NULL`-style failure path (`DivResult.invalid`) is never taken. -/
theorem claim_C6_counterexample :
    ha_frac_create "1" "2" = some ⟨false, oneInt, ⟨true, [2]⟩⟩ ∧
    ha_frac_create "0" "1" = some ⟨false, zeroInt, oneInt⟩ ∧
    ha_frac_div ⟨false, oneInt, ⟨true, [2]⟩⟩ ⟨false, zeroInt, oneInt⟩
      = DivResult.assertFail ∧
    DivResult.assertFail ≠ DivResult.invalid ∧
    (∀ r, DivResult.assertFail ≠ DivResult.ok r) := by
  refine ⟨by decide, by decide, by decide, by decide, ?_⟩
  intro r hc
  cases hc

/-- C7: `ha_frac_add` on canonical fractions returns the exact rational sum
in canonical form, and `add(create("1","2"), create("1","3")) = 5/6`. -/
theorem claim_C7 :
    (∀ n m : HaFrac, Canonical n → Canonical m →
      ∃ r, ha_frac_add n m = some r ∧ Canonical r ∧
        fracVal r = fracVal n + fracVal m) ∧
    ha_frac_create "1" "2" = some ⟨false, oneInt, ⟨true, [2]⟩⟩ ∧
    ha_frac_create "1" "3" = some ⟨false, oneInt, ⟨true, [3]⟩⟩ ∧
    ha_frac_add ⟨false, oneInt, ⟨true, [2]⟩⟩ ⟨false, oneInt, ⟨true, [3]⟩⟩
      = some ⟨false, ⟨true, [5]⟩, ⟨true, [6]⟩⟩ ∧
    fracVal ⟨false, ⟨true, [5]⟩, ⟨true, [6]⟩⟩ = 5 / 6 := by
  refine ⟨?_, by decide, by decide, by decide, by norm_num [fracVal, valD]⟩
  intro n m hn hm
  have hmix : n.nega = true → m.nega = true →
      0 < valD n.nume.digits ∨ 0 < valD m.nume.digits := fun h1 _ =>
    Or.inl (canonical_nega_nume_pos hn h1)
  exact ha_frac_add_correct (canonical_addOk hn) (canonical_addOk hm) hmix

theorem claim_C7_witness :
    Canonical ⟨false, oneInt, ⟨true, [2]⟩⟩ ∧
    Canonical ⟨false, oneInt, ⟨true, [3]⟩⟩ ∧
    (∃ r, ha_frac_add ⟨false, oneInt, ⟨true, [2]⟩⟩ ⟨false, oneInt, ⟨true, [3]⟩⟩
        = some r ∧ Canonical r ∧
      fracVal r = fracVal ⟨false, oneInt, ⟨true, [2]⟩⟩
        + fracVal ⟨false, oneInt, ⟨true, [3]⟩⟩) :=
  ⟨by decide, by decide, claim_C7.1 _ _ (by decide) (by decide)⟩

theorem toInt_of_sign_false {x : HaInt} (h : x.sign = false) :
    toInt x = -(valD x.digits : Int) := by
  unfold toInt
  rw [h]
  simp

/-- C8: `ha_int_gt` satisfies trichotomy
(`gt n m = (!gt m n && !eq n m)` for all well-formed pairs), `ha_frac_cmp`
on canonical fractions is a three-way comparison satisfying trichotomy, and
for two negative integers the larger magnitude is the smaller value. -/
theorem claim_C8 :
    (∀ n m : HaInt, WF n → WF m →
      ha_int_gt n m = (!ha_int_gt m n && !ha_int_eq n m)) ∧
    (∀ n m : HaFrac, Canonical n → Canonical m →
      ∃ c, ha_frac_cmp n m = some c ∧ (c = 1 ∨ c = 0 ∨ c = -1) ∧
        (c = 1 ↔ fracVal m < fracVal n) ∧
        (c = 0 ↔ fracVal n = fracVal m) ∧
        (c = -1 ↔ fracVal n < fracVal m)) ∧
    (∀ n m : HaInt, WF n → WF m → n.sign = false → m.sign = false →
      absGt n.digits m.digits = true → ha_int_gt m n = true) := by
  refine ⟨?_, ?_, ?_⟩
  · intro n m hn hm
    have hg1 := ha_int_gt_iff hn hm
    have hg2 := ha_int_gt_iff hm hn
    rcases lt_trichotomy (toInt n) (toInt m) with h | h | h
    · have e1 : ha_int_gt n m = false := by
        cases hb : ha_int_gt n m
        · rfl
        · exact absurd (hg1.mp hb) (by omega)
      have e2 : ha_int_gt m n = true := hg2.mpr h
      have e3 : ha_int_eq n m = false := by
        cases hb : ha_int_eq n m
        · rfl
        · rw [ha_int_eq_true_iff.mp hb] at h
          exact absurd h (lt_irrefl _)
      rw [e1, e2, e3]
      rfl
    · have e1 : ha_int_gt n m = false := by
        cases hb : ha_int_gt n m
        · rfl
        · exact absurd (hg1.mp hb) (by omega)
      have e2 : ha_int_gt m n = false := by
        cases hb : ha_int_gt m n
        · rfl
        · exact absurd (hg2.mp hb) (by omega)
      have e3 : ha_int_eq n m = true :=
        ha_int_eq_true_iff.mpr (toInt_inj hn hm h)
      rw [e1, e2, e3]
      rfl
    · have e1 : ha_int_gt n m = true := hg1.mpr h
      have e2 : ha_int_gt m n = false := by
        cases hb : ha_int_gt m n
        · rfl
        · exact absurd (hg2.mp hb) (by omega)
      have e3 : ha_int_eq n m = false := by
        cases hb : ha_int_eq n m
        · rfl
        · rw [ha_int_eq_true_iff.mp hb] at h
          exact absurd h (lt_irrefl _)
      rw [e1, e2, e3]
      rfl
  · intro n m hn hm
    obtain ⟨c, hc, h1, h2, h3⟩ := ha_frac_cmp_correct hn hm
    refine ⟨c, hc, ?_, h1, h2, h3⟩
    rcases lt_trichotomy (fracVal n) (fracVal m) with h | h | h
    · exact Or.inr (Or.inr (h3.mpr h))
    · exact Or.inr (Or.inl (h2.mpr h))
    · exact Or.inl (h1.mpr h)
  · intro n m hn hm hns hms habs
    have hv := (absGt_iff hn.1 hm.1).mp habs
    apply (ha_int_gt_iff hm hn).mpr
    rw [toInt_of_sign_false hns, toInt_of_sign_false hms]
    omega

theorem claim_C8_witness :
    WF ⟨false, [7]⟩ ∧ WF ⟨false, [2]⟩ ∧
    ha_int_gt ⟨false, [7]⟩ ⟨false, [2]⟩
      = (!ha_int_gt ⟨false, [2]⟩ ⟨false, [7]⟩
          && !ha_int_eq ⟨false, [7]⟩ ⟨false, [2]⟩) ∧
    absGt [7] [2] = true ∧
    ha_int_gt ⟨false, [2]⟩ ⟨false, [7]⟩ = true :=
  ⟨by decide, by decide,
    claim_C8.1 ⟨false, [7]⟩ ⟨false, [2]⟩ (by decide) (by decide),
    by decide,
    claim_C8.2.2 ⟨false, [7]⟩ ⟨false, [2]⟩ (by decide) (by decide) rfl rfl
      (by decide)⟩

/-- C9: the recursive Euclidean `get_gcd` of the fraction module terminates
on all strictly positive well-formed operands (fuel `valD small + 1`
suffices) and returns the greatest common divisor, and on the terminal
cases `gcd(a, a)` and `gcd(1, n)` it returns after a single step (fuel 1
suffices). -/
theorem claim_C9 :
    (∀ small big : HaInt, WF small → WF big → small.sign = true →
      big.sign = true → 0 < valD small.digits → 0 < valD big.digits →
      ∃ g, get_gcd (valD small.digits + 1) small big = some g ∧ WF g ∧
        valD g.digits = Nat.gcd (valD small.digits) (valD big.digits)) ∧
    (∀ a : HaInt, WF a → a.sign = true → 0 < valD a.digits →
      get_gcd 1 a a = some a) ∧
    (∀ n : HaInt, WF n → n.sign = true → 0 < valD n.digits →
      get_gcd 1 oneInt n = some oneInt) := by
  refine ⟨?_, ?_, ?_⟩
  · intro small big h1 h2 h3 h4 h5 h6
    obtain ⟨g, hg, hgw, _, _, hgv⟩ :=
      get_gcd_spec (valD small.digits + 1) small big h1 h2 h3 h4 h5 h6
        (by omega)
    exact ⟨g, hg, hgw, hgv⟩
  · intro a ha hs hv
    have hz : is_zero a = false := by
      cases hb : is_zero a
      · rfl
      · rw [is_zero_iff.mp hb] at hv
        exact absurd hv (by decide)
    obtain ⟨q, r, hq, hr, hrwf, hri⟩ := ha_int_remainder_val ha ha hz
    have hr0 : toInt r = 0 := by
      rw [hri, hs]
      simp [Nat.mod_self]
    have hsz : ha_int_sign r = 0 := (ha_int_sign_zero_iff hrwf).mpr hr0
    simp [get_gcd, hr, hsz]
  · intro n hnw hs hv
    have hone : WF oneInt := by decide
    obtain ⟨q, r, hq, hr, hrwf, hri⟩ :=
      ha_int_remainder_val hnw hone (by decide)
    have hr0 : toInt r = 0 := by
      rw [hri, hs]
      norm_num [oneInt, valD]
    have hsz : ha_int_sign r = 0 := (ha_int_sign_zero_iff hrwf).mpr hr0
    simp [get_gcd, hr, hsz]

theorem claim_C9_witness :
    (∃ g, get_gcd (valD [4] + 1) ⟨true, [4]⟩ ⟨true, [6]⟩ = some g ∧ WF g ∧
      valD g.digits = Nat.gcd (valD [4]) (valD [6])) ∧
    get_gcd 1 ⟨true, [5]⟩ ⟨true, [5]⟩ = some ⟨true, [5]⟩ ∧
    get_gcd 1 oneInt ⟨true, [7]⟩ = some oneInt :=
  ⟨claim_C9.1 ⟨true, [4]⟩ ⟨true, [6]⟩ (by decide) (by decide) rfl rfl
      (by decide) (by decide),
    claim_C9.2.1 ⟨true, [5]⟩ (by decide) rfl (by decide),
    claim_C9.2.2 ⟨true, [7]⟩ (by decide) rfl (by decide)⟩

/-- C10: the remainder is zero or carries the dividend's sign, its
magnitude is strictly below the divisor's (C truncated-division semantics),
and when `|n| < |m|` the quotient is the canonical non-negative zero and
the remainder is `n` itself, whatever the operand signs. -/
theorem claim_C10 (n m : HaInt) (hn : WF n) (hm : WF m)
    (hz : is_zero m = false) :
    ∃ q r, ha_int_quotient n m = some q ∧ ha_int_remainder n m = some r ∧
      (toInt r = 0 ∨ Int.sign (toInt r) = Int.sign (toInt n)) ∧
      (toInt r).natAbs < (toInt m).natAbs ∧
      (absGt m.digits n.digits = true → q = ⟨true, [0]⟩ ∧ r = n) := by
  obtain ⟨q, r, hq, hr, hrwf, hri⟩ := ha_int_remainder_val hn hm hz
  have hmpos : 0 < valD m.digits := by
    apply valD_pos_of_ne_zero hm.1
    intro hc
    rw [is_zero, hc] at hz
    simp at hz
  refine ⟨q, r, hq, hr, ?_, ?_, ?_⟩
  · rcases Nat.eq_zero_or_pos (valD n.digits % valD m.digits) with h0 | h0
    · left
      rw [hri, h0]
      cases n.sign <;> simp
    · right
      cases hs : n.sign
      · rw [hs] at hri
        simp only [Bool.false_eq_true, if_false] at hri
        have hne : n.digits ≠ [0] := fun hc =>
          absurd (hn.2 hc) (by rw [hs]; decide)
        have hnpos : 0 < valD n.digits := valD_pos_of_ne_zero hn.1 hne
        have h1 : toInt r < 0 := by
          rw [hri]
          omega
        have h2 : toInt n < 0 := by
          rw [toInt_of_sign_false hs]
          omega
        rw [Int.sign_eq_neg_one_iff_neg.mpr h1,
          Int.sign_eq_neg_one_iff_neg.mpr h2]
      · rw [hs] at hri
        simp only [if_pos] at hri
        have h1 : 0 < toInt r := by
          rw [hri]
          omega
        have h2 : 0 < toInt n := by
          rw [toInt_of_sign_true hs]
          have := Nat.mod_le (valD n.digits) (valD m.digits)
          omega
        rw [Int.sign_eq_one_iff_pos.mpr h1, Int.sign_eq_one_iff_pos.mpr h2]
  · have hra : (toInt r).natAbs = valD n.digits % valD m.digits := by
      rw [hri]
      cases n.sign <;> simp <;> omega
    have hma : (toInt m).natAbs = valD m.digits := by
      unfold toInt
      cases m.sign <;> simp
    rw [hra, hma]
    exact Nat.mod_lt _ hmpos
  · intro habs
    have hlt : valD n.digits < valD m.digits := (absGt_iff hm.1 hn.1).mp habs
    obtain ⟨q2, hq2, hq2wf, hq2v, _⟩ := ha_int_quotient_correct hn hm hz
    have hqq : q2 = q := by
      rw [hq] at hq2
      exact (Option.some.inj hq2).symm
    rw [hqq] at hq2wf hq2v
    have hq0 : valD q.digits = 0 := by
      rw [hq2v]
      exact Nat.div_eq_of_lt hlt
    have hqd : q.digits = [0] := by
      apply WFd_valD_inj hq2wf.1 (by decide)
      rw [hq0]
      rfl
    have hqs : q.sign = true := hq2wf.2 hqd
    have hqe : q = ⟨true, [0]⟩ := by
      obtain ⟨s, d⟩ := q
      simp only [] at hqs hqd
      rw [hqs, hqd]
    have hmod : valD n.digits % valD m.digits = valD n.digits :=
      Nat.mod_eq_of_lt hlt
    have hrn : toInt r = toInt n := by
      rw [hri, hmod]
      unfold toInt
      rfl
    exact ⟨hqe, toInt_inj hrwf hn hrn⟩

theorem claim_C10_witness :
    WF ⟨false, [2]⟩ ∧ WF ⟨true, [7]⟩ ∧ is_zero ⟨true, [7]⟩ = false ∧
    (∃ q r, ha_int_quotient ⟨false, [2]⟩ ⟨true, [7]⟩ = some q ∧
      ha_int_remainder ⟨false, [2]⟩ ⟨true, [7]⟩ = some r ∧
      (toInt r = 0 ∨ Int.sign (toInt r) = Int.sign (toInt ⟨false, [2]⟩)) ∧
      (toInt r).natAbs < (toInt ⟨true, [7]⟩).natAbs ∧
      (absGt [7] [2] = true → q = ⟨true, [0]⟩ ∧ r = ⟨false, [2]⟩)) :=
  ⟨by decide, by decide, by decide,
    claim_C10 ⟨false, [2]⟩ ⟨true, [7]⟩ (by decide) (by decide) (by decide)⟩

end MatrixCalc
